import Mathlib

/-!
Verification of the `dagger` DAG-hierarchy snapshot engine (`dagger.py`,
`options.py`, `utils.py`).

Shallow-embedding conventions used throughout this file:

* Python strings are Lean `String`s.  Python's `str.split('|')` is modelled by
  the structural function `pySplit` below (it has exactly Python's semantics:
  split at every separator occurrence, keep empty pieces, one piece for the
  empty string); Lean's builtin `String.splitOn` is avoided so that all
  definitions reduce on concrete inputs.
* Python's dynamically typed attribute values are modelled by the closed
  variant `PyValue`.  Python `float` is modelled as an exact rational number;
  this is faithful for floats whose decimal text form is exact (for such
  values Python's `str`/`float()` are exact as well).
* Mutable tree/element updates are modelled functionally: a method that
  mutates `self` becomes a function returning the updated value.
* The external Maya collaborators (`cmds`, `OpenMaya`, the helpers in
  `utils.py`) are modelled as function parameters (name resolution, scene
  membership, attribute getters) or as recorded call traces (`create_node`,
  `cmds.parent`, `cmds.setAttr`).
-/

set_option maxHeartbeats 1000000

namespace Dagger

/-- Closed model of the dynamic Python values that appear in attribute bags:
booleans, ints, floats (exact rationals, see the header note), strings, `None`,
and the container values (lists/tuples, e.g. Maya transform triples). -/
inductive PyValue : Type where
  | bool (b : Bool)
  | int (n : Int)
  | float (q : ℚ)
  | str (s : String)
  | none
  | list (xs : List PyValue)
  | tuple (xs : List PyValue)

/-- Attribute bag: insertion-ordered key/value mapping, modelling a Python
dict (`opt` dictionaries of `dagger.py`).  Key uniqueness is an invariant of
Python dicts and is carried as a hypothesis where needed. -/
abbrev Bag := List (String × PyValue)

/-- Character-level model of Python `s.split(sep)`: split at every occurrence
of the separator, keeping empty pieces; the empty string gives one empty
piece. -/
def splitChars (sep : Char) : List Char → List (List Char)
  | [] => [[]]
  | c :: rest =>
    if c = sep then [] :: splitChars sep rest
    else
      match splitChars sep rest with
      | [] => [[c]]
      | p :: ps => (c :: p) :: ps

/-- Model of Python `s.split('|')` (and `split(sep)` generally). -/
def pySplit (s : String) (sep : Char) : List String :=
  (splitChars sep s.data).map String.mk

/-- Model of Python `name.split('|')[-1]` (the last path segment). -/
def lastSeg (s : String) : String :=
  (pySplit s '|').getLastD ""

/-- Join segments into a pipe-rooted path string: `strOfSegs ["a","b"] = "|a|b"`.
This is how `find_named_element` accumulates its `target_fp` and how Maya
full path names are formed. -/
def strOfSegs (segs : List String) : String :=
  segs.foldl (fun acc s => acc ++ "|" ++ s) ""

/-- A string not containing the path separator. -/
def pipeFree (s : String) : Prop := '|' ∉ s.data

instance (s : String) : Decidable (pipeFree s) := by
  unfold pipeFree; infer_instance

/-- Model of the `NTree`/`DAGtree` node class of `dagger.py`: a name, an
optional attribute bag (`opt`; `None` and `{}` are distinguished as
`Option.none` / `some []`), and the ordered list of children.  The `parent`
back-reference is omitted: it always points at the owning node, and the one
place that reads it (`restore_parent`) is modelled with the owning node made
explicit.  `short_name` is derived and display-only. -/
inductive NTree : Type where
  | mk (name : String) (opt : Option Bag) (childs : List NTree)

def NTree.name : NTree → String
  | .mk n _ _ => n

def NTree.opt : NTree → Option Bag
  | .mk _ o _ => o

def NTree.childs : NTree → List NTree
  | .mk _ _ cs => cs

@[simp] theorem NTree.name_mk (n : String) (o : Option Bag) (cs : List NTree) :
    (NTree.mk n o cs).name = n := rfl

@[simp] theorem NTree.opt_mk (n : String) (o : Option Bag) (cs : List NTree) :
    (NTree.mk n o cs).opt = o := rfl

@[simp] theorem NTree.childs_mk (n : String) (o : Option Bag) (cs : List NTree) :
    (NTree.mk n o cs).childs = cs := rfl

mutual

/-- Model of `DAGstructure.traverse(root, topdown)`: the finite list of
`(node, list(node.childs))` pairs the Python generator yields, in yield
order.  In top-down mode a node is yielded before its subtree, in bottom-up
mode after it. -/
def traverse : NTree → Bool → List (NTree × List NTree)
  | .mk n o cs, topdown =>
    (if topdown then [(NTree.mk n o cs, cs)] else [])
      ++ traverseList cs topdown
      ++ (if topdown then [] else [(NTree.mk n o cs, cs)])

/-- The `for name in childs_list: yield from traverse(name, topdown)` inner
loop of `traverse`. -/
def traverseList : List NTree → Bool → List (NTree × List NTree)
  | [], _ => []
  | c :: rest, topdown => traverse c topdown ++ traverseList rest topdown

end

mutual

/-- All nodes of a tree, root first, in depth-first pre-order. -/
def allNodes : NTree → List NTree
  | .mk n o cs => NTree.mk n o cs :: allNodesList cs

/-- All nodes of a forest, in depth-first pre-order. -/
def allNodesList : List NTree → List NTree
  | [] => []
  | c :: rest => allNodes c ++ allNodesList rest

end

/-- Return value of `NTree.find_add`: Python returns the int `0` from the
recursive branch and the list of newly added nodes from `self.add`. -/
inductive FindAddRet : Type where
  | zero
  | added (nodes : List NTree)

mutual

/-- Model of `NTree.find_add(par, name, opt)`: if `self.name != par` recurse
into every child (discarding their results) and return `0`; otherwise append
a fresh child via `self.add(name, opt)` and return the list of added nodes.
The returned pair is (updated tree, Python return value). -/
def find_add : NTree → String → String → Option Bag → NTree × FindAddRet
  | .mk n o cs, par, nm, opt =>
    if n = par then
      (NTree.mk n o (cs ++ [NTree.mk nm opt []]), FindAddRet.added [NTree.mk nm opt []])
    else
      (NTree.mk n o (findAddList cs par nm opt), FindAddRet.zero)

/-- The `for ch in self.childs: ch.find_add(...)` loop of `find_add`. -/
def findAddList : List NTree → String → String → Option Bag → List NTree
  | [], _, _, _ => []
  | c :: rest, par, nm, opt => (find_add c par nm opt).1 :: findAddList rest par nm opt

end

/-- Structural strong induction for `NTree` (children hypothesis). -/
theorem NTree.strongInduction {P : NTree → Prop}
    (h : ∀ n o cs, (∀ c ∈ cs, P c) → P (NTree.mk n o cs)) : ∀ t, P t
  | .mk n o cs => h n o cs (fun c hc => NTree.strongInduction h c)
termination_by t => sizeOf t
decreasing_by
  have := List.sizeOf_lt_of_mem hc
  simp only [NTree.mk.sizeOf_spec]
  omega

/-! ### The attribute codec (`__create_new_element` option encoding, `restore_option`) -/

/-- Model of `re.search(r"'(.+?)'", str(type(v))).group(1)`: the Python type
name of the value, as written into the `type` attribute of an option tag. -/
def typeName : PyValue → String
  | .bool _ => "bool"
  | .int _ => "int"
  | .float _ => "float"
  | .str _ => "str"
  | .none => "NoneType"
  | .list _ => "list"
  | .tuple _ => "tuple"

/-- Most-significant-first decimal digit characters of `n`, with structural
fuel (any fuel at least `n` is exact). -/
def natDigitsAux : ℕ → ℕ → List Char
  | 0, _ => []
  | _, 0 => []
  | fuel + 1, n => natDigitsAux fuel (n / 10) ++ [Nat.digitChar (n % 10)]

/-- Decimal digit string of a natural number (model of Python `str` on a
non-negative int). -/
def natDigitsStr (n : ℕ) : String :=
  if n = 0 then "0" else String.mk (natDigitsAux n n)

/-- Model of Python `str` on an int. -/
def pyIntRepr (n : Int) : String :=
  if n < 0 then "-" ++ natDigitsStr n.natAbs else natDigitsStr n.natAbs

/-- Smallest number of decimal digits after the point needed to write a
fraction with the given (reduced) denominator exactly, searched up to 20
(enough for every exactly-decimal double): `den ∣ 10^k` iff the shifted
value is an integer. -/
def decExpD (den : ℕ) : Option ℕ :=
  (List.range 21).find? (fun k => (10 : ℕ) ^ k % den = 0)

/-- Rendering of the exact decimal `num / den` (reduced fraction) in Python
float `str` format: sign, integer part, point, fractional digits (at least
one).  Shared worker of `floatRepr`. -/
def floatReprND (num : Int) (den : ℕ) : String :=
  match decExpD den with
  | some k =>
    let m : Int := num * (((10 : ℕ) ^ k / den : ℕ) : Int)
    let ds := (natDigitsStr m.natAbs).data
    let ds := if ds.length ≤ k then List.replicate (k + 1 - ds.length) '0' ++ ds else ds
    let sign := if m < 0 then "-" else ""
    if k = 0 then
      sign ++ String.mk ds ++ ".0"
    else
      sign ++ String.mk (ds.take (ds.length - k)) ++ "." ++ String.mk (ds.drop (ds.length - k))
  | Option.none => ""

/-- Model of Python `str` on a float, for floats whose value is an exact
decimal (for these Python's shortest-roundtrip repr prints exactly the
decimal expansion, with at least one digit after the point).  Floats outside
the exactly-decimal domain of the rational model render as `""`; they are
excluded by hypothesis wherever float text round-trips are claimed. -/
def floatRepr (q : ℚ) : String :=
  floatReprND q.num q.den

mutual

/-- Model of Python `repr` on the modelled values (strings are quoted with
single quotes; the quote-switching Python applies to strings containing a
quote is not modelled, faithful for quote-free strings). -/
def pyRepr : PyValue → String
  | .bool b => if b then "True" else "False"
  | .int n => pyIntRepr n
  | .float q => floatRepr q
  | .str s => "'" ++ s ++ "'"
  | .none => "None"
  | .list xs => "[" ++ pyReprJoin xs ++ "]"
  | .tuple [x] => "(" ++ pyRepr x ++ ",)"
  | .tuple xs => "(" ++ pyReprJoin xs ++ ")"

/-- Comma-join of the element reprs of a container value. -/
def pyReprJoin : List PyValue → String
  | [] => ""
  | [x] => pyRepr x
  | x :: rest => pyRepr x ++ ", " ++ pyReprJoin rest

end

/-- Model of Python `str(v)` as used by `__create_new_element` when writing
the `value` attribute: identical to `repr` except on strings. -/
def pyStr : PyValue → String
  | .str s => s
  | v => pyRepr v

/-- Decimal digit predicate (Python `int`/`float` text constructors). -/
def isDigitCh (c : Char) : Bool := 48 ≤ c.toNat && c.toNat ≤ 57

/-- Value of a digit character. -/
def digitVal (c : Char) : ℕ := c.toNat - 48

/-- Parse a non-empty all-digit character list as a natural number. -/
def parseNatList (cs : List Char) : Option ℕ :=
  if cs ≠ [] ∧ cs.all isDigitCh then
    some (cs.foldl (fun a c => a * 10 + digitVal c) 0)
  else Option.none

/-- Model of Python `int(s)` (on the plain sign-and-digits forms; whitespace
tolerance and underscores are not modelled — the encoder never emits them). -/
def parseInt (s : String) : Option Int :=
  match s.data with
  | [] => Option.none
  | c :: rest =>
    if c = '-' then (parseNatList rest).map (fun v => -(v : Int))
    else if c = '+' then (parseNatList rest).map (fun v => (v : Int))
    else (parseNatList (c :: rest)).map (fun v => (v : Int))

/-- Digit-level worker of `parseFloat`: integer-part value, fraction value
and fraction length of an unsigned decimal form `digits[.digits]` /
`.digits`; `none` on any other shape. -/
def parseFloatParts (cs : List Char) : Option (ℕ × ℕ × ℕ) :=
  let ip := cs.takeWhile isDigitCh
  match cs.dropWhile isDigitCh with
  | [] =>
    if ip ≠ [] then some (ip.foldl (fun a c => a * 10 + digitVal c) 0, 0, 0)
    else Option.none
  | '.' :: frac =>
    if (ip ≠ [] ∨ frac ≠ []) ∧ frac.all isDigitCh then
      some (ip.foldl (fun a c => a * 10 + digitVal c) 0,
        frac.foldl (fun a c => a * 10 + digitVal c) 0, frac.length)
    else Option.none
  | _ => Option.none

/-- Assemble the rational value of parsed float parts. -/
def floatOfParts (p : ℕ × ℕ × ℕ) : ℚ :=
  (p.1 : ℚ) + (p.2.1 : ℚ) / (10 : ℚ) ^ p.2.2

/-- Model of Python `float(s)` on plain decimal forms `[±]digits[.digits]` /
`[±].digits` (exponent, `inf` and `nan` forms are not modelled — the encoder's
exactly-decimal domain never emits them). -/
def parseFloat (s : String) : Option ℚ :=
  match s.data with
  | [] => Option.none
  | c :: rest =>
    if c = '-' then (parseFloatParts rest).map (fun p => -(floatOfParts p))
    else if c = '+' then (parseFloatParts rest).map floatOfParts
    else (parseFloatParts (c :: rest)).map floatOfParts

/-- Model of `distutils.util.strtobool`: lowercase, then map the truthy
tokens to `1`, the falsy ones to `0`; anything else raises `ValueError`
(modelled as `none`). -/
def strtobool (s : String) : Option ℕ :=
  let v := String.mk (s.data.map Char.toLower)
  if v ∈ (["y", "yes", "t", "true", "on", "1"] : List String) then some 1
  else if v ∈ (["n", "no", "f", "false", "off", "0"] : List String) then some 0
  else Option.none

/-- Model of the per-option dispatch of `XMLmixin.restore_option`: `NoneType`
yields `None` regardless of the stored text; `bool` goes through
`bool(strtobool(v))`; every other type tag is applied as `eval(typ)(v)` —
`int`/`float`/`str` parse the text, `list`/`tuple` iterate the characters of
the text, and an unknown tag raises (modelled as `none`, like every other
exception). -/
def restoreValue (typ value : String) : Option PyValue :=
  if typ = "NoneType" then some PyValue.none
  else if typ = "bool" then (strtobool value).map (fun i => PyValue.bool (i != 0))
  else if typ = "int" then (parseInt value).map PyValue.int
  else if typ = "float" then (parseFloat value).map PyValue.float
  else if typ = "str" then some (PyValue.str value)
  else if typ = "list" then
    some (PyValue.list (value.data.map (fun c => PyValue.str (String.mk [c]))))
  else if typ = "tuple" then
    some (PyValue.tuple (value.data.map (fun c => PyValue.str (String.mk [c]))))
  else Option.none

/-- Python dict insertion: replace in place if the key exists, else append. -/
def dictInsert (d : Bag) (k : String) (v : PyValue) : Bag :=
  if d.any (fun p => p.1 == k) then
    d.map (fun p => if p.1 == k then (k, v) else p)
  else d ++ [(k, v)]

/-- The option loop of `XMLmixin.restore_option`, building the restored
dict in element order. -/
def restoreOptionGo : List (String × String × String) → Bag → Option Bag
  | [], acc => some acc
  | kvt :: rest, acc =>
    match restoreValue kvt.2.2 kvt.2.1 with
    | Option.none => Option.none
    | some pv => restoreOptionGo rest (dictInsert acc kvt.1 pv)

/-- Model of `XMLmixin.restore_option` over the extracted
(name, value, type) attribute triples of the option tags. -/
def restoreOption (opts : List (String × String × String)) : Option Bag :=
  restoreOptionGo opts []

/-! ### The XML element model (`ElementTree` as used by `XMLmixin`) -/

/-- Ordered element tree with named attributes: the structured document.
`attrs` is the insertion-ordered attribute dict, `children` the mixed
ordered list of sub-elements (option tags first for freshly created node
tags, appended node tags after). -/
inductive Elem : Type where
  | mk (tag : String) (attrs : List (String × String)) (children : List Elem)

def Elem.tag : Elem → String
  | .mk t _ _ => t

def Elem.attrs : Elem → List (String × String)
  | .mk _ a _ => a

def Elem.children : Elem → List Elem
  | .mk _ _ cs => cs

@[simp] theorem Elem.tag_mk (t : String) (a : List (String × String)) (cs : List Elem) :
    (Elem.mk t a cs).tag = t := rfl

@[simp] theorem Elem.attrs_mk (t : String) (a : List (String × String)) (cs : List Elem) :
    (Elem.mk t a cs).attrs = a := rfl

@[simp] theorem Elem.children_mk (t : String) (a : List (String × String)) (cs : List Elem) :
    (Elem.mk t a cs).children = cs := rfl

/-- Model of `Element.get` / `attrib[...]` lookup. -/
def Elem.attrGet (e : Elem) (k : String) : Option String :=
  e.attrs.lookup k

/-- Tag constants of `options.TagOption`. -/
def TAG_ROOT : String := "dagStructure"

/-- Node tag constant. -/
def TAG_NODE : String := "node"

/-- Option tag constant. -/
def TAG_OPT : String := "option"

/-- Model of `Element.findall(tag)`: the direct children with the given tag,
in document order. -/
def findallTag (e : Elem) (t : String) : List Elem :=
  e.children.filter (fun c => c.tag == t)

/-- Option sub-elements written by `__create_new_element` for an attribute
dict (one option tag per entry, in dict iteration order). -/
def optionElems (options : Option Bag) : List Elem :=
  match options with
  | Option.none => []
  | some bag =>
    bag.map (fun kv =>
      Elem.mk TAG_OPT [("name", kv.1), ("value", pyStr kv.2), ("type", typeName kv.2)] [])

/-- Model of `XMLmixin.__create_new_element`. -/
def createNewElement (name tag : String) (options : Option Bag) : Elem :=
  Elem.mk tag [("name", lastSeg name), ("fullpath", name)] (optionElems options)

/-- Model of `XMLmixin.create_new_nodeTag`. -/
def create_new_nodeTag (name : String) (options : Option Bag) : Elem :=
  createNewElement name TAG_NODE options

/-- The match test of `find_named_element`'s inner loop: a node tag whose
`fullpath` attribute equals the accumulated prefix. -/
def isNodeWithFP (fp : String) (c : Elem) : Bool :=
  c.tag == TAG_NODE && c.attrGet "fullpath" == some fp

mutual

/-- Model of `XMLmixin.find_named_element` walking the remaining path
segments with accumulated prefix `pre`: at each level the first node-tagged
child whose `fullpath` equals the accumulated prefix is descended into; if
there is none, a fresh node tag for that prefix is created (carrying the
supplied options) and appended, then descended into.  The extra `app`
argument models `export_xml`'s subsequent `ele_curr.append(...)` calls on
the returned element: the `app` elements are appended to the element at the
end of the walk (pass `[]` for the bare find-or-create of the source). -/
def findNamedElement (e : Elem) (pre : String) (segs : List String)
    (opt : Option Bag) (app : List Elem) : Elem :=
  match segs, e with
  | [], .mk t a cs => Elem.mk t a (cs ++ app)
  | s :: rest, .mk t a cs =>
    let fp := pre ++ "|" ++ s
    match findInChildren cs fp rest opt app with
    | some cs' => Elem.mk t a cs'
    | Option.none =>
      Elem.mk t a (cs ++ [findNamedElement (create_new_nodeTag fp opt) fp rest opt app])
termination_by (segs.length, 0)

/-- The `for grp in ele_curr.findall(TAG_NODE)` search of
`find_named_element`: descend into the first matching node child in place;
`none` if no child matches. -/
def findInChildren (cs : List Elem) (fp : String) (rest : List String)
    (opt : Option Bag) (app : List Elem) : Option (List Elem) :=
  match cs with
  | [] => Option.none
  | c :: cs' =>
    if isNodeWithFP fp c then some (findNamedElement c fp rest opt app :: cs')
    else (findInChildren cs' fp rest opt app).map (fun l => c :: l)
termination_by (rest.length, cs.length + 1)

end

/-- Source-signature wrapper for `find_named_element(ele, fullpathName,
options)`: split the full path at pipes, drop the empty leading piece, walk
from the given element. -/
def find_named_element (ele : Elem) (fullpathName : String) (options : Option Bag) : Elem :=
  findNamedElement ele "" ((pySplit fullpathName '|').drop 1) options []

/-! ### Basic tree lemmas -/

theorem mem_allNodesList {x : NTree} :
    ∀ {cs : List NTree}, x ∈ allNodesList cs ↔ ∃ c ∈ cs, x ∈ allNodes c := by
  intro cs
  induction cs with
  | nil => simp [allNodesList]
  | cons c rest ih =>
    simp only [allNodesList, List.mem_append, ih, List.mem_cons]
    constructor
    · rintro (hx | ⟨c', hc', hx⟩)
      · exact ⟨c, Or.inl rfl, hx⟩
      · exact ⟨c', Or.inr hc', hx⟩
    · rintro ⟨c', hc' | hc', hx⟩
      · exact Or.inl (hc' ▸ hx)
      · exact Or.inr ⟨c', hc', hx⟩

theorem self_mem_allNodes (t : NTree) : t ∈ allNodes t := by
  cases t
  simp [allNodes]

theorem mem_allNodes_of_child {x c : NTree} {n : String} {o : Option Bag} {cs : List NTree}
    (hc : c ∈ cs) (hx : x ∈ allNodes c) : x ∈ allNodes (NTree.mk n o cs) := by
  simp only [allNodes, List.mem_cons]
  exact Or.inr (mem_allNodesList.mpr ⟨c, hc, hx⟩)

/-- When none of the children changes, the `find_add` child loop is the
identity. -/
theorem findAddList_id {par nm : String} {opt : Option Bag} :
    ∀ {cs : List NTree}, (∀ c ∈ cs, find_add c par nm opt = (c, FindAddRet.zero)) →
      findAddList cs par nm opt = cs := by
  intro cs
  induction cs with
  | nil => intro _; rfl
  | cons c rest ih =>
    intro h
    have hc := h c (by simp)
    simp only [findAddList, hc, ih (fun c' hc' => h c' (by simp [hc']))]

/-- When no node of the tree is named `par`, `find_add` adds nothing
anywhere and returns `0`. -/
theorem find_add_no_parent (t : NTree) (par nm : String) (opt : Option Bag) :
    (∀ x ∈ allNodes t, x.name ≠ par) → find_add t par nm opt = (t, FindAddRet.zero) := by
  induction t using NTree.strongInduction with
  | h n o cs IH =>
    intro hno
    have hr : n ≠ par := by simpa using hno (NTree.mk n o cs) (self_mem_allNodes _)
    have hcs : findAddList cs par nm opt = cs :=
      findAddList_id (fun c hc =>
        IH c hc (fun x hx => hno x (mem_allNodes_of_child hc hx)))
    simp [find_add, hr, hcs]

/-! ### Claim C10 -/

/-- Claim C10: if no node of the tree is named `P`, `find_add(P, n)` raises
no error (it is total), adds no node anywhere (the tree is returned
unchanged) and returns `0`; and whenever the receiver itself is not named
`P`, `find_add` returns `0` even if a descendant insertion occurred. -/
theorem claim_C10_find_add_absent_parent :
    (∀ (t : NTree) (par nm : String) (opt : Option Bag),
        (∀ x ∈ allNodes t, x.name ≠ par) →
          find_add t par nm opt = (t, FindAddRet.zero))
  ∧ (∀ (t : NTree) (par nm : String) (opt : Option Bag),
        t.name ≠ par → (find_add t par nm opt).2 = FindAddRet.zero) := by
  constructor
  · exact find_add_no_parent
  · intro t par nm opt h
    cases t with
    | mk n o cs =>
      simp only [NTree.name_mk] at h
      simp [find_add, h]

/-- Witness for C10 at a concrete input: a two-node tree with no node named
`"p"`; the insertion is a no-op returning `0`, and a receiver not named `"p"`
returns `0` even though its child takes the insertion. -/
theorem claim_C10_find_add_absent_parent_witness :
    (find_add (NTree.mk "r" Option.none [NTree.mk "a" Option.none []]) "p" "n" Option.none
      = (NTree.mk "r" Option.none [NTree.mk "a" Option.none []], FindAddRet.zero))
  ∧ ((find_add (NTree.mk "r" Option.none [NTree.mk "a" Option.none []]) "a" "n" Option.none).2
      = FindAddRet.zero) := by
  constructor
  · refine claim_C10_find_add_absent_parent.1 _ "p" "n" Option.none ?_
    intro x hx
    simp only [allNodes, allNodesList, List.append_nil, List.mem_cons,
      List.not_mem_nil, or_false] at hx
    rcases hx with h | h <;> subst h <;> decide
  · exact claim_C10_find_add_absent_parent.2 _ "a" "n" Option.none (by decide)

/-! ### Claim C6 -/

/-- Claim C6: top-down traversal yields a node before its subtree (the head
of `traverse t true` is `(t, t.childs)` followed by the children blocks),
bottom-up traversal yields it after, and on the concrete 3-level tree with
root `R`, children `[A, B]`, and `A`'s children `[C, D]` the yielded pair
sequences are exactly the claimed ones. -/
theorem claim_C6_traversal_order :
    (∀ t : NTree, traverse t true = (t, t.childs) :: traverseList t.childs true)
  ∧ (∀ t : NTree, traverse t false = traverseList t.childs false ++ [(t, t.childs)])
  ∧ (traverse
      (NTree.mk "R" Option.none
        [NTree.mk "A" Option.none [NTree.mk "C" Option.none [], NTree.mk "D" Option.none []],
         NTree.mk "B" Option.none []]) true
    = [(NTree.mk "R" Option.none
          [NTree.mk "A" Option.none [NTree.mk "C" Option.none [], NTree.mk "D" Option.none []],
           NTree.mk "B" Option.none []],
        [NTree.mk "A" Option.none [NTree.mk "C" Option.none [], NTree.mk "D" Option.none []],
         NTree.mk "B" Option.none []]),
       (NTree.mk "A" Option.none [NTree.mk "C" Option.none [], NTree.mk "D" Option.none []],
        [NTree.mk "C" Option.none [], NTree.mk "D" Option.none []]),
       (NTree.mk "C" Option.none [], []),
       (NTree.mk "D" Option.none [], []),
       (NTree.mk "B" Option.none [], [])])
  ∧ (traverse
      (NTree.mk "R" Option.none
        [NTree.mk "A" Option.none [NTree.mk "C" Option.none [], NTree.mk "D" Option.none []],
         NTree.mk "B" Option.none []]) false
    = [(NTree.mk "C" Option.none [], []),
       (NTree.mk "D" Option.none [], []),
       (NTree.mk "A" Option.none [NTree.mk "C" Option.none [], NTree.mk "D" Option.none []],
        [NTree.mk "C" Option.none [], NTree.mk "D" Option.none []]),
       (NTree.mk "B" Option.none [], []),
       (NTree.mk "R" Option.none
          [NTree.mk "A" Option.none [NTree.mk "C" Option.none [], NTree.mk "D" Option.none []],
           NTree.mk "B" Option.none []],
        [NTree.mk "A" Option.none [NTree.mk "C" Option.none [], NTree.mk "D" Option.none []],
         NTree.mk "B" Option.none []])]) := by
  refine ⟨?_, ?_, ?_, ?_⟩
  · intro t; cases t; simp [traverse]
  · intro t; cases t; simp [traverse]
  · simp [traverse, traverseList]
  · simp [traverse, traverseList]

/-! ### Claim C2 -/

/-- Claim C2: inserting path `|a|b|c` into an empty document via the
path-insertion primitive, with no prior insertion of `|a` or `|a|b`, yields
exactly three node tags `a`, `b`, `c`, each the sole child of the previous,
carrying no option tags when no options are supplied; and re-inserting the
same path into the result finds the existing chain by accumulated full-path
prefix instead of creating anything (the document is unchanged). -/
theorem claim_C2_lazy_ancestor_materialization :
    (find_named_element (Elem.mk TAG_ROOT [] []) "|a|b|c" Option.none
      = Elem.mk TAG_ROOT []
          [Elem.mk "node" [("name", "a"), ("fullpath", "|a")]
            [Elem.mk "node" [("name", "b"), ("fullpath", "|a|b")]
              [Elem.mk "node" [("name", "c"), ("fullpath", "|a|b|c")] []]]])
  ∧ (find_named_element
        (Elem.mk TAG_ROOT []
          [Elem.mk "node" [("name", "a"), ("fullpath", "|a")]
            [Elem.mk "node" [("name", "b"), ("fullpath", "|a|b")]
              [Elem.mk "node" [("name", "c"), ("fullpath", "|a|b|c")] []]]])
        "|a|b|c" Option.none
      = Elem.mk TAG_ROOT []
          [Elem.mk "node" [("name", "a"), ("fullpath", "|a")]
            [Elem.mk "node" [("name", "b"), ("fullpath", "|a|b")]
              [Elem.mk "node" [("name", "c"), ("fullpath", "|a|b|c")] []]]]) := by
  constructor
  · simp [find_named_element, findNamedElement, findInChildren, pySplit, splitChars,
      create_new_nodeTag, createNewElement, optionElems, lastSeg, isNodeWithFP,
      Elem.attrGet, List.lookup, TAG_ROOT, TAG_NODE]
  · simp [find_named_element, findNamedElement, findInChildren, pySplit, splitChars,
      create_new_nodeTag, createNewElement, optionElems, lastSeg, isNodeWithFP,
      Elem.attrGet, List.lookup, TAG_ROOT, TAG_NODE]

/-! ### Claim C3 -/

/-- Claim C3: encoding then decoding a boolean `True`, an integer `5`, a
float `1.5`, the absent value `None` and the string `"foo"` each yields a
value equal to the original, of the original's type; and a `NoneType` type
tag decodes to the absent value regardless of the stored value text. -/
theorem claim_C3_attribute_type_fidelity :
    (restoreValue (typeName (PyValue.bool true)) (pyStr (PyValue.bool true))
        = some (PyValue.bool true))
  ∧ (restoreValue (typeName (PyValue.int 5)) (pyStr (PyValue.int 5))
        = some (PyValue.int 5))
  ∧ (restoreValue (typeName (PyValue.float (3 / 2))) (pyStr (PyValue.float (3 / 2)))
        = some (PyValue.float (3 / 2)))
  ∧ (restoreValue (typeName PyValue.none) (pyStr PyValue.none)
        = some PyValue.none)
  ∧ (restoreValue (typeName (PyValue.str "foo")) (pyStr (PyValue.str "foo"))
        = some (PyValue.str "foo"))
  ∧ (∀ s : String, restoreValue "NoneType" s = some PyValue.none) := by
  have hfloat : pyStr (PyValue.float (3 / 2)) = "1.5" := by
    show floatRepr (3 / 2 : ℚ) = "1.5"
    unfold floatRepr
    rw [show ((3 : ℚ) / 2).num = 3 from by norm_num,
      show ((3 : ℚ) / 2).den = 2 from by norm_num]
    decide
  refine ⟨rfl, rfl, ?_, rfl, rfl, fun s => rfl⟩
  rw [hfloat]
  show (parseFloat "1.5").map PyValue.float = some (PyValue.float (3 / 2))
  rw [show parseFloat "1.5" = (parseFloatParts "1.5".data).map floatOfParts from rfl,
    show parseFloatParts "1.5".data = some (1, 5, 1) from by decide]
  have h32 : floatOfParts (1, 5, 1) = 3 / 2 := by
    simp [floatOfParts]
    norm_num
  simp [h32]

/-! ### The build engine (`DAGstructure.build`, `utils.create_node`) -/

/-- One recorded `utils.create_node` call: the creation name, the `nodeType`
and `uuid` bag values passed, and the parent argument (`""` models Python's
falsy no-parent default). -/
structure CreateCall where
  name : String
  nodeType : PyValue
  uuid : PyValue
  parent : String

/-- Python `elem.name.startswith('|')`. -/
def startsWithPipe (s : String) : Bool :=
  match s.data with
  | '|' :: _ => true
  | _ => false

/-- Model of Python `elem.opt[k]`: `none` both for a missing key (KeyError)
and for `opt` being `None` (TypeError), the two exception paths. -/
def bagGet (o : Option Bag) (k : String) : Option PyValue :=
  match o with
  | Option.none => Option.none
  | some bag => bag.lookup k

/-- Model of `build._create_node(elem, parent_node)`: short creation name
(last path segment for pipe-rooted names), required `nodeType`, `uuid` when
`maintainUUID` (else the empty string); `none` models the exception raised
when a required attribute is missing. -/
def createNodeCall (elem : NTree) (parentNode : String) (maintainUUID : Bool) :
    Option CreateCall :=
  let nodeName := if startsWithPipe elem.name then lastSeg elem.name else elem.name
  match bagGet elem.opt "nodeType" with
  | Option.none => Option.none
  | some nt =>
    if maintainUUID then
      match bagGet elem.opt "uuid" with
      | Option.none => Option.none
      | some u => some ⟨nodeName, nt, u, parentNode⟩
    else some ⟨nodeName, nt, PyValue.str "", parentNode⟩

/-- The parent-name string `build` passes: `''` for the root call,
`root.name` (the yielding traversal node) for the per-child calls. -/
def parentStr : Option NTree → String
  | Option.none => ""
  | some q => q.name

/-- The ordered (node, tree parent) creation attempts of `build` with the
default root: `_create_node(root, '')` first, then for every top-down
traversal pair `(n, cs)` one attempt per child `c ∈ cs` with parent `n`. -/
def buildPairs (t : NTree) : List (NTree × Option NTree) :=
  (t, Option.none) :: (traverse t true).flatMap (fun p => p.2.map (fun c => (c, some p.1)))

/-- The creation call a build attempt renders (if its attributes exist). -/
def buildCallOf (mu : Bool) (p : NTree × Option NTree) : Option CreateCall :=
  createNodeCall p.1 (parentStr p.2) mu

/-- Sequential execution of the creation attempts: emit calls in order and
halt with an error at the first attempt whose required attributes are
missing (the Python KeyError aborts `build`). -/
def buildGo (mu : Bool) : List (NTree × Option NTree) → List CreateCall × Bool
  | [] => ([], false)
  | p :: rest =>
    match buildCallOf mu p with
    | Option.none => ([], true)
    | some c =>
      let r := buildGo mu rest
      (c :: r.1, r.2)

/-- Model of `DAGstructure.build(maintainUUID)` on the default root: the
issued `create_node` calls in order, and whether an exception aborted the
build. -/
def buildRun (t : NTree) (mu : Bool) : List CreateCall × Bool :=
  buildGo mu (buildPairs t)

/-! ### Build support lemmas -/

theorem traverse_true_eq (n : String) (o : Option Bag) (cs : List NTree) :
    traverse (NTree.mk n o cs) true = (NTree.mk n o cs, cs) :: traverseList cs true := by
  simp [traverse]

theorem traverseList_eq_flatMap :
    ∀ cs : List NTree, traverseList cs true = cs.flatMap (fun c => traverse c true) := by
  intro cs
  induction cs with
  | nil => rfl
  | cons c rest ih => simp [traverseList, ih]

/-- Splitting a `flatMap` at a distinguished element locates the source
element and the local split. -/
theorem flatMap_split {α β : Type} (f : α → List β) :
    ∀ (l : List α) (pre : List β) (x : β) (post : List β),
      l.flatMap f = pre ++ x :: post →
      ∃ l₁ a l₂ p₁ p₂,
        l = l₁ ++ a :: l₂ ∧ f a = p₁ ++ x :: p₂ ∧ pre = l₁.flatMap f ++ p₁ := by
  intro l
  induction l with
  | nil =>
    intro pre x post h
    simp only [List.flatMap_nil] at h
    exact absurd h (by simp)
  | cons a rest ih =>
    intro pre x post h
    simp only [List.flatMap_cons] at h
    rcases List.append_eq_append_iff.mp h with ⟨a', ha1, ha2⟩ | ⟨c', hc1, hc2⟩
    · rcases ih a' x post ha2 with ⟨l₁, b, l₂, p₁, p₂, hl, hf, hp⟩
      exact ⟨a :: l₁, b, l₂, p₁, p₂, by simp [hl], hf,
        by simp [ha1, hp, List.flatMap_cons]⟩
    · cases c' with
      | nil =>
        rcases ih [] x post (by simpa using hc2.symm) with ⟨l₁, b, l₂, p₁, p₂, hl, hf, hp⟩
        have h1 : l₁.flatMap f = [] := (List.append_eq_nil.mp hp.symm).1
        have h2 : p₁ = [] := (List.append_eq_nil.mp hp.symm).2
        refine ⟨a :: l₁, b, l₂, p₁, p₂, by simp [hl], hf, ?_⟩
        have hpre : f a = pre := by simpa using hc1
        simp [List.flatMap_cons, hpre, h1, h2]
      | cons y c'' =>
        have hy : x = y ∧ post = c'' ++ rest.flatMap f := by
          have h' : x :: post = y :: (c'' ++ rest.flatMap f) := by simpa using hc2
          exact ⟨(List.cons.injEq _ _ _ _ ▸ h').1, (List.cons.injEq _ _ _ _ ▸ h').2⟩
        exact ⟨[], a, rest, pre, c'', by simp, by rw [hc1, hy.1], by simp⟩

/-- Pre-order origin of a traversal pair: the node of any yielded pair is
either the traversal root or a listed child of an earlier yielded pair. -/
theorem traverse_pair_origin :
    ∀ (t : NTree) (pre : List (NTree × List NTree)) (n : NTree) (cs : List NTree)
      (post : List (NTree × List NTree)),
      traverse t true = pre ++ (n, cs) :: post →
      n = t ∨ n ∈ pre.flatMap (fun p => p.2) := by
  intro t
  induction t using NTree.strongInduction with
  | h nm o csR IH =>
    intro pre n cs post h
    rw [traverse_true_eq, traverseList_eq_flatMap] at h
    cases pre with
    | nil =>
      left
      have h1 : (NTree.mk nm o csR, csR) = (n, cs) := by
        simpa using congrArg (fun l => l.head?) h
      exact ((Prod.mk.injEq _ _ _ _ ▸ h1).1).symm
    | cons hd pre' =>
      have hhd : hd = (NTree.mk nm o csR, csR) := by
        have h1 : some (NTree.mk nm o csR, csR) = some hd := by
          simpa using congrArg (fun l => l.head?) h
        exact (Option.some.injEq _ _ ▸ h1).symm
      have htail : csR.flatMap (fun c => traverse c true) = pre' ++ (n, cs) :: post := by
        have h1 := congrArg List.tail h
        simpa using h1
      rcases flatMap_split _ csR pre' (n, cs) post htail with ⟨l₁, c, l₂, p₁, p₂, hl, hf, hp⟩
      have hcmem : c ∈ csR := by rw [hl]; simp
      rcases IH c hcmem p₁ n cs p₂ hf with h1 | h1
      · right
        rw [hhd]
        simp only [List.flatMap_cons]
        exact List.mem_append.mpr (Or.inl (h1 ▸ hcmem))
      · right
        rw [hhd]
        simp only [List.flatMap_cons]
        refine List.mem_append.mpr (Or.inr ?_)
        rw [hp]
        rcases List.mem_flatMap.mp h1 with ⟨p, hpmem, hnp⟩
        refine List.mem_flatMap.mpr ⟨p, ?_, hnp⟩
        simp [hpmem]

/-! ### Claim C4 -/

/-- Concrete two-node example tree: child `A` of root `R`, both carrying the
attributes `build` requires. -/
def exRAchild : NTree :=
  NTree.mk "A" (some [("nodeType", PyValue.str "transform"), ("uuid", PyValue.str "uA")]) []

/-- Root of the two-node example tree. -/
def exRA : NTree :=
  NTree.mk "R" (some [("nodeType", PyValue.str "transform"), ("uuid", PyValue.str "uR")])
    [exRAchild]

/-- Claim C4: `build` never issues the creation call for a child before the
creation call for its tree parent — every creation attempt naming parent `q`
is preceded by an attempt that creates `q` — the first attempt is the root
with no parent argument, and on the concrete root/child tree the recorded
calls are `R` (with empty parent argument) strictly before `A`. -/
theorem claim_C4_build_ordering :
    (∀ (t : NTree) (pre : List (NTree × Option NTree)) (c q : NTree)
        (post : List (NTree × Option NTree)),
        buildPairs t = pre ++ (c, some q) :: post → q ∈ pre.map Prod.fst)
  ∧ (∀ t : NTree, (buildPairs t).head? = some (t, Option.none))
  ∧ (buildRun exRA true
      = ([⟨"R", PyValue.str "transform", PyValue.str "uR", ""⟩,
          ⟨"A", PyValue.str "transform", PyValue.str "uA", "R"⟩], false)) := by
  refine ⟨?_, ?_, ?_⟩
  · intro t pre c q post h
    unfold buildPairs at h
    cases pre with
    | nil =>
      exfalso
      have h1 : ((t, Option.none) : NTree × Option NTree) = (c, some q) := by
        simpa using congrArg (fun l => l.head?) h
      exact Option.noConfusion (Prod.mk.injEq _ _ _ _ ▸ h1).2
    | cons hd pre' =>
      have hhd : hd = (t, Option.none) := by
        have h1 : some ((t, Option.none) : NTree × Option NTree) = some hd := by
          simpa using congrArg (fun l => l.head?) h
        exact (Option.some.injEq _ _ ▸ h1).symm
      have htail :
          (traverse t true).flatMap (fun p => p.2.map (fun c' => (c', some p.1)))
            = pre' ++ (c, some q) :: post := by
        have h1 := congrArg List.tail h
        simpa using h1
      rcases flatMap_split _ _ pre' (c, some q) post htail with
        ⟨l₁, p, l₂, p₁, p₂, hl, hf, hp⟩
      have hq : q = p.1 := by
        have hmem : (c, some q) ∈ p.2.map (fun c' => (c', some p.1)) := by
          rw [hf]
          simp
        rcases List.mem_map.mp hmem with ⟨c', _, hc'⟩
        exact (Option.some.inj (congrArg Prod.snd hc')).symm
      rcases traverse_pair_origin t l₁ p.1 p.2 l₂ (by rw [hl]) with h1 | h1
      · rw [hhd]
        simp [hq, h1]
      · rw [hhd, hq]
        rcases List.mem_flatMap.mp h1 with ⟨pp, hppmem, hppc⟩
        have hcall : (p.1, some pp.1) ∈ l₁.flatMap (fun r => r.2.map (fun c' => (c', some r.1))) :=
          List.mem_flatMap.mpr ⟨pp, hppmem, List.mem_map.mpr ⟨p.1, hppc, rfl⟩⟩
        have hmem' : (p.1, some pp.1) ∈ pre' := by
          rw [hp]
          exact List.mem_append.mpr (Or.inl hcall)
        simp only [List.map_cons, List.mem_cons]
        exact Or.inr (List.mem_map.mpr ⟨(p.1, some pp.1), hmem', rfl⟩)
  · intro t
    rfl
  · rfl

/-- Witness for C4 at the concrete two-node tree: applying the ordering part
to the split of `buildPairs exRA` around the creation attempt of child `A`
places the root among the earlier-created nodes. -/
theorem claim_C4_build_ordering_witness :
    exRA ∈ ([((exRA : NTree), (Option.none : Option NTree))].map Prod.fst) :=
  claim_C4_build_ordering.1 exRA [(exRA, Option.none)] exRAchild exRA [] rfl

/-! ### Claim C5 -/

/-- Characterization of the sequential build run: the issued calls are the
rendered longest prefix of renderable attempts, and the error flag is set
iff some attempt cannot render its call. -/
theorem buildGo_spec (mu : Bool) :
    ∀ l : List (NTree × Option NTree),
      buildGo mu l
        = ((l.takeWhile (fun p => (buildCallOf mu p).isSome)).filterMap (buildCallOf mu),
            l.any (fun p => (buildCallOf mu p).isNone)) := by
  intro l
  induction l with
  | nil => rfl
  | cons p rest ih =>
    cases h : buildCallOf mu p with
    | none => simp [buildGo, h, List.takeWhile_cons, List.any_cons]
    | some c => simp [buildGo, h, ih, List.takeWhile_cons, List.any_cons]

/-- Every tree node is the subject of exactly one creation attempt; here we
need membership only. -/
theorem mem_traverse_childs :
    ∀ (t n : NTree), n ∈ allNodes t →
      n = t ∨ n ∈ (traverse t true).flatMap (fun p => p.2) := by
  intro t
  induction t using NTree.strongInduction with
  | h nm o cs IH =>
    intro n hn
    simp only [allNodes, List.mem_cons] at hn
    rcases hn with h1 | h1
    · exact Or.inl h1
    · rcases mem_allNodesList.mp h1 with ⟨c, hc, hnc⟩
      right
      rw [traverse_true_eq, traverseList_eq_flatMap]
      simp only [List.flatMap_cons, List.mem_append]
      rcases IH c hc n hnc with h2 | h2
      · exact Or.inl (h2 ▸ hc)
      · refine Or.inr ?_
        rcases List.mem_flatMap.mp h2 with ⟨p, hp, hnp⟩
        exact List.mem_flatMap.mpr ⟨p,
          List.mem_flatMap.mpr ⟨c, hc, hp⟩, hnp⟩

/-- Every tree node appears among the build attempts. -/
theorem mem_buildPairs_fst (t n : NTree) (hn : n ∈ allNodes t) :
    ∃ p ∈ buildPairs t, p.1 = n := by
  rcases mem_traverse_childs t n hn with h | h
  · exact ⟨(t, Option.none), by simp [buildPairs], h.symm⟩
  · rcases List.mem_flatMap.mp h with ⟨p, hp, hnp⟩
    refine ⟨(n, some p.1), ?_, rfl⟩
    unfold buildPairs
    simp only [List.mem_cons]
    exact Or.inr (List.mem_flatMap.mpr ⟨p, hp, List.mem_map.mpr ⟨n, hnp, rfl⟩⟩)

/-- A failed element strictly truncates `takeWhile`. -/
theorem takeWhile_length_lt {α : Type} (f : α → Bool) :
    ∀ l : List α, (∃ x ∈ l, f x = false) → (l.takeWhile f).length < l.length := by
  intro l
  induction l with
  | nil => rintro ⟨x, hx, _⟩; exact absurd hx (by simp)
  | cons a rest ih =>
    rintro ⟨x, hx, hfx⟩
    cases ha : f a with
    | false => simp [List.takeWhile_cons, ha]
    | true =>
      have hxr : x ∈ rest := by
        rcases List.mem_cons.mp hx with h | h
        · exact absurd (h ▸ ha) (by simp [hfx])
        · exact h
      have := ih ⟨x, hxr, hfx⟩
      simp [List.takeWhile_cons, ha]
      omega

/-- The child-attempt list has the same length as the child list. -/
theorem flatMap_attempt_length :
    ∀ l : List (NTree × List NTree),
      (l.flatMap (fun p => p.2.map (fun c => (c, some p.1)))).length
        = (l.flatMap (fun p => p.2)).length := by
  intro l
  induction l with
  | nil => rfl
  | cons p rest ih => simp [List.flatMap_cons, ih]

/-- Counting: the traversal lists every non-root node exactly once as a
child, so the attempt count equals the node count. -/
theorem traverse_childs_length :
    ∀ t : NTree, ((traverse t true).flatMap (fun p => p.2)).length + 1 = (allNodes t).length := by
  intro t
  induction t using NTree.strongInduction with
  | h nm o cs IH =>
    rw [traverse_true_eq, traverseList_eq_flatMap]
    simp only [List.flatMap_cons, List.length_append, allNodes, List.length_cons]
    have hlist : ∀ cs' : List NTree, (∀ c ∈ cs', ((traverse c true).flatMap (fun p => p.2)).length + 1 = (allNodes c).length) →
        ((cs'.flatMap (fun c => traverse c true)).flatMap (fun p => p.2)).length + cs'.length
          = (allNodesList cs').length := by
      intro cs'
      induction cs' with
      | nil => intro _; rfl
      | cons c rest ihr =>
        intro hall
        simp only [List.flatMap_cons, List.flatMap_append, List.length_append,
          allNodesList, List.length_cons]
        have h1 := hall c (by simp)
        have h2 := ihr (fun c' hc' => hall c' (by simp [hc']))
        omega
    have := hlist cs IH
    omega

/-- Claim C5: on a tree containing a node whose bag lacks `nodeType`,
`build` (default `maintainUUID=True`) signals an error, the issued calls are
exactly the rendered attempts strictly before the first failing one, and in
particular the build halts before creating all nodes. -/
theorem claim_C5_missing_nodeType_halts :
    ∀ t : NTree,
      (∃ n ∈ allNodes t, bagGet n.opt "nodeType" = Option.none) →
      (buildRun t true).2 = true
      ∧ (buildRun t true).1
          = ((buildPairs t).takeWhile (fun p => (buildCallOf true p).isSome)).filterMap
              (buildCallOf true)
      ∧ (buildRun t true).1.length < (allNodes t).length := by
  rintro t ⟨n, hn, hmiss⟩
  rcases mem_buildPairs_fst t n hn with ⟨p, hp, hpn⟩
  have hfail : buildCallOf true p = Option.none := by
    unfold buildCallOf createNodeCall
    rw [hpn, hmiss]
  have hrun := buildGo_spec true (buildPairs t)
  refine ⟨?_, ?_, ?_⟩
  · show (buildGo true (buildPairs t)).2 = true
    rw [hrun]
    exact List.any_eq_true.mpr ⟨p, hp, by simp [hfail]⟩
  · show (buildGo true (buildPairs t)).1 = _
    rw [hrun]
  · show (buildGo true (buildPairs t)).1.length < _
    rw [hrun]
    calc (((buildPairs t).takeWhile (fun p => (buildCallOf true p).isSome)).filterMap
            (buildCallOf true)).length
        ≤ ((buildPairs t).takeWhile (fun p => (buildCallOf true p).isSome)).length :=
          List.length_filterMap_le _ _
      _ < (buildPairs t).length :=
          takeWhile_length_lt _ _ ⟨p, hp, by simp [hfail]⟩
      _ = (allNodes t).length := by
          unfold buildPairs
          simp only [List.length_cons, flatMap_attempt_length]
          have := traverse_childs_length t
          omega

/-- Concrete tree for the C5 witness: the child's bag lacks `nodeType`. -/
def exBadChild : NTree := NTree.mk "A" (some []) []

/-- Root of the C5 witness tree (well-attributed). -/
def exBad : NTree :=
  NTree.mk "R" (some [("nodeType", PyValue.str "transform"), ("uuid", PyValue.str "uR")])
    [exBadChild]

/-- Witness for C5: on the concrete tree whose child lacks `nodeType` the
build signals the error, issues only the root call, and halts early. -/
theorem claim_C5_missing_nodeType_halts_witness :
    (buildRun exBad true).2 = true
    ∧ (buildRun exBad true).1
        = ((buildPairs exBad).takeWhile (fun p => (buildCallOf true p).isSome)).filterMap
            (buildCallOf true)
    ∧ (buildRun exBad true).1.length < (allNodes exBad).length :=
  claim_C5_missing_nodeType_halts exBad
    ⟨exBadChild, by simp [exBad, exBadChild, allNodes, allNodesList], rfl⟩

/-! ### restoreParenting (`DAGstructure.restore_parent`) -/

/-- One recorded `cmds.parent(child, parent)` attempt with its outcome. -/
structure ParentAttempt where
  child : String
  parent : String
  ok : Bool

/-- Model of the external `cmds.parent` call: the scene predicate decides
whether the call succeeds or raises. -/
def cmdsParent (parentOk : String → String → Bool) (c p : String) : Except Unit Unit :=
  if parentOk c p then Except.ok () else Except.error ()

/-- Model of `DAGstructure.restore_parent`: walk the whole tree top-down
and, for every listed child, try `cmds.parent(c.name, c.parent.name)`
(`c.parent` is the yielding node, per the ownership invariant), swallowing
any failure (`except: pass`).  The function records every attempt with its
outcome; its totality is the model of `restore_parent` never raising. -/
def restore_parent (t : NTree) (parentOk : String → String → Bool) : List ParentAttempt :=
  (traverse t true).flatMap (fun p =>
    p.2.map (fun c =>
      match cmdsParent parentOk c.name p.1.name with
      | Except.ok _ => ⟨c.name, p.1.name, true⟩
      | Except.error _ => ⟨c.name, p.1.name, false⟩))

/-! ### Claim C8 -/

/-- Claim C8: on a tree in which one node's external counterpart is missing
(every re-parent naming it as child fails), `restore_parent` swallows the
failures — they are recorded with a failed outcome, not raised — and still
attempts the re-parent of every non-root node: the attempted (child, parent)
name pairs are exactly the full traversal child list, independently of the
external outcomes. -/
theorem claim_C8_best_effort_restore :
    ∀ (t : NTree) (parentOk : String → String → Bool) (m : NTree),
      m ∈ allNodes t →
      (∀ p', parentOk m.name p' = false) →
      ((restore_parent t parentOk).map (fun a => (a.child, a.parent))
          = (traverse t true).flatMap (fun p => p.2.map (fun c => (c.name, p.1.name))))
      ∧ (∀ a ∈ restore_parent t parentOk, a.child = m.name → a.ok = false) := by
  intro t parentOk m _ hm
  constructor
  · unfold restore_parent
    rw [List.map_flatMap]
    refine List.flatMap_congr ?_
    intro p _
    rw [List.map_map]
    refine List.map_congr_left ?_
    intro c _
    unfold cmdsParent
    by_cases h : parentOk c.name p.1.name = true
    · simp [h]
    · simp [Bool.eq_false_iff.mpr h]
  · intro a ha hchild
    unfold restore_parent at ha
    rcases List.mem_flatMap.mp ha with ⟨p, _, hap⟩
    rcases List.mem_map.mp hap with ⟨c, _, hac⟩
    have hcn : c.name = m.name := by
      rw [← hac] at hchild
      unfold cmdsParent at hchild
      by_cases h : parentOk c.name p.1.name = true <;> simp [h] at hchild <;> exact hchild
    rw [← hac]
    unfold cmdsParent
    rw [hcn, hm p.1.name]
    simp

/-- Witness tree for C8: root with children `A` and `B`. -/
def exC8 : NTree :=
  NTree.mk "R" Option.none [NTree.mk "A" Option.none [], NTree.mk "B" Option.none []]

/-- Witness for C8: with `B`'s counterpart missing, both children are still
attempted (in order) and `B`'s failed attempt is swallowed. -/
theorem claim_C8_best_effort_restore_witness :
    ((restore_parent exC8 (fun c _ => !(c == "B"))).map (fun a => (a.child, a.parent))
        = (traverse exC8 true).flatMap (fun p => p.2.map (fun c => (c.name, p.1.name))))
    ∧ (∀ a ∈ restore_parent exC8 (fun c _ => !(c == "B")),
        a.child = (NTree.mk "B" Option.none []).name → a.ok = false) :=
  claim_C8_best_effort_restore exC8 (fun c _ => !(c == "B")) (NTree.mk "B" Option.none [])
    (by simp [exC8, allNodes, allNodesList]) (fun p' => by simp)

/-! ### restoreAttributes (`DAGtree.restoreAttrs`, `DAGstructure.restore_attributes`) -/

/-- Names for which Python `hasattr(self, attr)` is `True` on every `DAGtree`
node regardless of its bag: the instance attributes set in `__init__` and the
class methods/properties (dunder names omitted — no caller can reach them
through the attribute-restore path without also being listed here). -/
def dagTreeBuiltinAttrs : List String :=
  ["name", "short_name", "childs", "parent", "opt", "fullpath", "restoreAttrs",
   "has_children", "has_parent", "add", "printout", "find_add", "find", "sibling"]

/-- Model of `hasattr(self, attr)` on a `DAGtree` node: `__init__` copies
every bag key onto the instance via `setattr`, and the built-in names are
always present. -/
def dagHasattr (n : NTree) (attr : String) : Bool :=
  (match n.opt with
   | Option.none => false
   | some bag => bag.any (fun p => p.1 == attr))
  || dagTreeBuiltinAttrs.contains attr

/-- One recorded `cmds.setAttr` call: the `name.attr` target and the value. -/
structure SetAttrCall where
  target : String
  value : PyValue

/-- Python `val is None`. -/
def isPyNone : PyValue → Bool
  | PyValue.none => true
  | _ => false

/-- The `for attr in attrs` loop of `DAGtree.restoreAttrs`, accumulating the
recorded `cmds.setAttr` calls; `none` models the `KeyError`/`TypeError`
raised when a `hasattr`-true name is absent from the bag (or the bag is
`None`). -/
def restoreAttrsGo (n : NTree) : List String → List SetAttrCall → Option (List SetAttrCall)
  | [], acc => some acc
  | attr :: rest, acc =>
    if dagHasattr n attr then
      match bagGet n.opt attr with
      | Option.none => Option.none
      | some v =>
        if isPyNone v then restoreAttrsGo n rest acc
        else restoreAttrsGo n rest (acc ++ [⟨n.name ++ "." ++ attr, v⟩])
    else restoreAttrsGo n rest acc

/-- Model of `DAGtree.restoreAttrs(attrs)`: for each requested name, if
`hasattr` holds read `self.opt[attr]` and record a
`cmds.setAttr(self.name + '.' + attr, val)` call when the value is not
`None`. -/
def restoreAttrs (n : NTree) (attrs : List String) : Option (List SetAttrCall) :=
  restoreAttrsGo n attrs []

/-- The `for elem in child_elem` inner loop of `restore_attributes`. -/
def restoreChilds (attrs : List String) :
    List NTree → List SetAttrCall → Option (List SetAttrCall)
  | [], acc => some acc
  | c :: cs, acc =>
    match restoreAttrs c attrs with
    | Option.none => Option.none
    | some l => restoreChilds attrs cs (acc ++ l)

/-- The `for root, child_elem in self.traverse()` outer loop of
`restore_attributes`. -/
def restoreWalk (attrs : List String) :
    List (NTree × List NTree) → List SetAttrCall → Option (List SetAttrCall)
  | [], acc => some acc
  | p :: rest, acc =>
    match restoreChilds attrs p.2 acc with
    | Option.none => Option.none
    | some acc' => restoreWalk attrs rest acc'

/-- Model of `DAGstructure.restore_attributes(root, attrs)`: restore on the
passed node (`self.root` when defaulted), then walk `self.traverse()` —
which always starts at `self.root`, not at the passed node — restoring on
every listed child of every pair. -/
def restore_attributes (selfRoot root : NTree) (attrs : List String) :
    Option (List SetAttrCall) :=
  match restoreAttrs root attrs with
  | Option.none => Option.none
  | some first => restoreWalk attrs (traverse selfRoot true) first

/-- The set-attribute calls a single node contributes: one per requested
name stored in its bag with a non-`None` value. -/
def nodeCalls (n : NTree) (attrs : List String) : List SetAttrCall :=
  attrs.filterMap (fun attr =>
    match bagGet n.opt attr with
    | Option.none => Option.none
    | some v => if isPyNone v then Option.none else some ⟨n.name ++ "." ++ attr, v⟩)

/-! ### Claim C7 -/

/-- Example nodes for the C7 counterexample: `fromNode` is the attribute-less
child `A`, while sibling `B` stores a `visibility` value. -/
def exC7A : NTree := NTree.mk "A" (some []) []

/-- Sibling `B` of the C7 counterexample, storing `visibility = True`. -/
def exC7B : NTree := NTree.mk "B" (some [("visibility", PyValue.bool true)]) []

/-- Whole tree of the C7 counterexample. -/
def exC7R : NTree := NTree.mk "R" (some []) [exC7A, exC7B]

/-- Counterexample to C7 as stated: restoring `visibility` from `fromNode =
A` issues a set-attribute call for node `B`, which is not in the subtree
rooted at `A` — the walk ignores `fromNode` and always covers the whole
tree. -/
theorem claim_C7_restore_attributes_counterexample :
    restore_attributes exC7R exC7A ["visibility"]
        = some [⟨"B.visibility", PyValue.bool true⟩]
    ∧ (∀ x ∈ allNodes exC7A, x.name ≠ "B") := by
  constructor
  · rfl
  · intro x hx
    simp only [exC7A, allNodes, allNodesList, List.mem_cons, List.not_mem_nil,
      or_false] at hx
    subst hx
    decide

/-- No bag key means no successful dict lookup. -/
theorem lookup_eq_none_of_any_false {bag : Bag} {attr : String}
    (h : bag.any (fun p => p.1 == attr) = false) : bag.lookup attr = Option.none := by
  induction bag with
  | nil => rfl
  | cons kv rest ih =>
    simp only [List.any_cons, Bool.or_eq_false_iff] at h
    have h1 : (attr == kv.1) = false := by
      simp only [beq_eq_false_iff_ne, ne_eq] at h ⊢
      exact fun he => h.1 he.symm
    cases kv with
    | mk k v =>
      simp only [List.lookup]
      rw [h1]
      exact ih h.2

/-- Per-node characterization of the `restoreAttrs` loop when no requested
name is an off-bag built-in: it succeeds and emits exactly the node's calls
after the accumulator. -/
theorem restoreAttrsGo_spec (n : NTree) :
    ∀ (attrs : List String) (acc : List SetAttrCall),
      (∀ a ∈ attrs, dagHasattr n a = true → (bagGet n.opt a).isSome) →
      restoreAttrsGo n attrs acc = some (acc ++ nodeCalls n attrs) := by
  intro attrs
  induction attrs with
  | nil => intro acc _; simp [restoreAttrsGo, nodeCalls]
  | cons a rest ih =>
    intro acc h
    have hrest : ∀ a' ∈ rest, dagHasattr n a' = true → (bagGet n.opt a').isSome :=
      fun a' ha' => h a' (by simp [ha'])
    by_cases hha : dagHasattr n a = true
    · have hsome : (bagGet n.opt a).isSome := h a (by simp) hha
      rcases Option.isSome_iff_exists.mp hsome with ⟨v, hv⟩
      by_cases hnone : isPyNone v = true
      · rw [show restoreAttrsGo n (a :: rest) acc = restoreAttrsGo n rest acc by
          simp [restoreAttrsGo, hha, hv, hnone]]
        rw [ih acc hrest]
        simp [nodeCalls, hv, hnone]
      · have hnone' : isPyNone v = false := by simpa using hnone
        rw [show restoreAttrsGo n (a :: rest) acc
            = restoreAttrsGo n rest (acc ++ [⟨n.name ++ "." ++ a, v⟩]) by
          simp [restoreAttrsGo, hha, hv, hnone']]
        rw [ih _ hrest]
        simp [nodeCalls, hv, hnone']
    · have hha' : dagHasattr n a = false := by simpa using hha
      have hget : bagGet n.opt a = Option.none := by
        unfold dagHasattr at hha'
        unfold bagGet
        cases ho : n.opt with
        | none => rfl
        | some bag =>
          rw [ho] at hha'
          simp only [Bool.or_eq_false_iff] at hha'
          exact lookup_eq_none_of_any_false hha'.1
      rw [show restoreAttrsGo n (a :: rest) acc = restoreAttrsGo n rest acc by
        simp [restoreAttrsGo, hha']]
      rw [ih acc hrest]
      simp [nodeCalls, hget]

/-- The inner child loop accumulates each child's calls in order. -/
theorem restoreChilds_spec (attrs : List String) :
    ∀ (cs : List NTree) (acc : List SetAttrCall),
      (∀ c ∈ cs, ∀ a ∈ attrs, dagHasattr c a = true → (bagGet c.opt a).isSome) →
      restoreChilds attrs cs acc
        = some (acc ++ cs.flatMap (fun c => nodeCalls c attrs)) := by
  intro cs
  induction cs with
  | nil => intro acc _; simp [restoreChilds]
  | cons c cs' ih =>
    intro acc h
    have hc : restoreAttrs c attrs = some (nodeCalls c attrs) :=
      restoreAttrsGo_spec c attrs [] (h c (by simp))
    rw [show restoreChilds attrs (c :: cs') acc
        = restoreChilds attrs cs' (acc ++ nodeCalls c attrs) by
      simp [restoreChilds, hc]]
    rw [ih _ (fun c' hc' => h c' (by simp [hc']))]
    simp

/-- The traversal walk accumulates each pair's child calls in order. -/
theorem restoreWalk_spec (attrs : List String) :
    ∀ (l : List (NTree × List NTree)) (acc : List SetAttrCall),
      (∀ p ∈ l, ∀ c ∈ p.2, ∀ a ∈ attrs, dagHasattr c a = true → (bagGet c.opt a).isSome) →
      restoreWalk attrs l acc
        = some (acc ++ l.flatMap (fun p => p.2.flatMap (fun c => nodeCalls c attrs))) := by
  intro l
  induction l with
  | nil => intro acc _; simp [restoreWalk]
  | cons p rest ih =>
    intro acc h
    rw [show restoreWalk attrs (p :: rest) acc
        = restoreWalk attrs rest (acc ++ p.2.flatMap (fun c => nodeCalls c attrs)) by
      simp [restoreWalk, restoreChilds_spec attrs p.2 acc (h p (by simp))]]
    rw [ih _ (fun p' hp' => h p' (by simp [hp']))]
    simp

/-- Amended C7, proved on the code: provided no requested name is a built-in
`DAGtree` attribute missing from a visited node's bag (which would raise),
`restore_attributes(fromNode, attrs)` succeeds and issues calls for
`fromNode` first and then for every non-root node of the whole tree —
regardless of `fromNode` — each node contributing exactly the requested
names present in its bag with a non-`None` value. -/
theorem claim_C7_restore_attributes_amended :
    ∀ (selfRoot root : NTree) (attrs : List String),
      (∀ a ∈ attrs, dagHasattr root a = true → (bagGet root.opt a).isSome) →
      (∀ p ∈ traverse selfRoot true, ∀ c ∈ p.2, ∀ a ∈ attrs,
          dagHasattr c a = true → (bagGet c.opt a).isSome) →
      restore_attributes selfRoot root attrs
        = some (nodeCalls root attrs
            ++ (traverse selfRoot true).flatMap (fun p =>
                  p.2.flatMap (fun c => nodeCalls c attrs))) := by
  intro selfRoot root attrs hroot hall
  unfold restore_attributes
  have h1 : restoreAttrs root attrs = some ([] ++ nodeCalls root attrs) :=
    restoreAttrsGo_spec root attrs [] hroot
  rw [h1]
  show restoreWalk attrs (traverse selfRoot true) ([] ++ nodeCalls root attrs) = _
  rw [restoreWalk_spec attrs (traverse selfRoot true) _ hall]
  simp

/-- Witness for the amended C7 at the counterexample configuration, applying
the amended theorem at `fromNode = A` in the concrete tree. -/
theorem claim_C7_restore_attributes_amended_witness :
    restore_attributes exC7R exC7A ["visibility"]
      = some (nodeCalls exC7A ["visibility"]
          ++ (traverse exC7R true).flatMap (fun p =>
                p.2.flatMap (fun c => nodeCalls c ["visibility"]))) :=
  claim_C7_restore_attributes_amended exC7R exC7A ["visibility"]
    (by
      intro a ha h
      simp only [List.mem_singleton] at ha
      subst ha
      exact absurd h (by decide))
    (by
      intro p hp c hc a ha h
      simp only [List.mem_singleton] at ha
      subst ha
      rw [show traverse exC7R true
          = [(exC7R, [exC7A, exC7B]), (exC7A, []), (exC7B, [])] from rfl] at hp
      rcases List.mem_cons.mp hp with rfl | hp
      · rcases List.mem_cons.mp hc with rfl | hc
        · exact absurd h (by decide)
        · rcases List.mem_cons.mp hc with rfl | hc
          · decide
          · exact absurd hc (List.not_mem_nil _)
      · rcases List.mem_cons.mp hp with rfl | hp
        · exact absurd hc (List.not_mem_nil _)
        · rcases List.mem_cons.mp hp with rfl | hp
          · exact absurd hc (List.not_mem_nil _)
          · exact absurd hp (List.not_mem_nil _))

/-! ### construct (`DAGstructure.construct`) and the external scene -/

/-- External scene node (the Maya DAG as the engine observes it): a short
name, whether the object is of shape kind (`cmds.objectType(isa='shape')`),
and the ordered children. -/
inductive ExtNode : Type where
  | mk (short : String) (isShape : Bool) (children : List ExtNode)

def ExtNode.short : ExtNode → String
  | .mk s _ _ => s

def ExtNode.isShape : ExtNode → Bool
  | .mk _ i _ => i

def ExtNode.children : ExtNode → List ExtNode
  | .mk _ _ cs => cs

@[simp] theorem ExtNode.short_mk (s : String) (i : Bool) (cs : List ExtNode) :
    (ExtNode.mk s i cs).short = s := rfl

@[simp] theorem ExtNode.isShape_mk (s : String) (i : Bool) (cs : List ExtNode) :
    (ExtNode.mk s i cs).isShape = i := rfl

@[simp] theorem ExtNode.childsOf_mk (s : String) (i : Bool) (cs : List ExtNode) :
    (ExtNode.mk s i cs).children = cs := rfl

mutual

/-- All scene nodes of a subtree, the node itself first, pre-order. -/
def extAllNodes : ExtNode → List ExtNode
  | .mk s i cs => ExtNode.mk s i cs :: extAllNodesList cs

/-- All scene nodes of a forest, pre-order. -/
def extAllNodesList : List ExtNode → List ExtNode
  | [] => []
  | c :: rest => extAllNodes c ++ extAllNodesList rest

end

/-- Model of `utils.get_all_childs(name)` / `listRelatives(c=True, ad=True)`:
the short names of all strict descendants of the scene root (the engine uses
this list only for membership and emptiness). -/
def extDescendantShorts (x : ExtNode) : List String :=
  (extAllNodesList x.children).map ExtNode.short

/-- First pre-order scene node carrying the given short name: model of Maya
resolving a short name (unique resolution in well-formed scenes). -/
def extFind (x : ExtNode) (s : String) : Option ExtNode :=
  (extAllNodes x).find? (fun y => y.short == s)

/-- Model of `cmds.objectType(utils.getNode(short, long=True), isa='shape')`
against the scene (`false` when the name does not resolve — a case no
reachable call exercises, since construct only queries names of visited
scene objects). -/
def sceneIsShape (sceneRoot : ExtNode) (s : String) : Bool :=
  match extFind sceneRoot s with
  | some y => y.isShape
  | Option.none => false

/-- Model of `construct._get_parent(nodes, fullpath_names)`: walk the path
segments from the end, skip any segment equal to the last one, and return
the first segment occurring in the candidate parent-name list (`None` when
there is none). -/
def getParentChoice (nodes : List String) (segs : List String) : Option String :=
  let node := segs.getLastD ""
  (segs.reverse).find? (fun s => !(s == node) && nodes.contains s)

/-- Structural strong induction for `ExtNode`. -/
theorem ExtNode.strongInductionOn {P : ExtNode → Prop}
    (h : ∀ s i cs, (∀ c ∈ cs, P c) → P (ExtNode.mk s i cs)) : ∀ x, P x
  | .mk s i cs => h s i cs (fun c hc => ExtNode.strongInductionOn h c)
termination_by x => sizeOf x
decreasing_by
  have := List.sizeOf_lt_of_mem hc
  simp only [ExtNode.mk.sizeOf_spec]
  omega

mutual

/-- One non-root visit of `construct.__construct` on scene object `x`:
compute `_parent` from the object's path segments and its direct parent's
short name (`utils.get_parentNode`, passed in by the recursion), insert the
object into the tree when it is a listed, non-shape descendant and
`expandShape` is not set, then recurse into the children; an empty
descendant list aborts the visit (`else: return`), and a missing `_parent`
skips only the insertion.  `pathSegs` carries the pipe-split of the object's
full path name (leading empty piece included). -/
def constructNode (sceneRoot : ExtNode) (childList : List String)
    (getAttrs : String → Bag) (expandShape : Bool) :
    ExtNode → List String → String → NTree → NTree
  | .mk s i cs, pathSegs, parShort, tree =>
    match getParentChoice [parShort] pathSegs with
    | Option.none =>
      constructChildren sceneRoot childList getAttrs expandShape cs pathSegs s tree
    | some par =>
      cond childList.isEmpty tree
        (constructChildren sceneRoot childList getAttrs expandShape cs pathSegs s
          (cond (childList.contains s && !expandShape && !(sceneIsShape sceneRoot s))
            ((find_add tree par s (some (getAttrs s))).1) tree))

/-- The child recursion of `__construct`: visit each scene child in order
with the parent's path extended by the child's short name. -/
def constructChildren (sceneRoot : ExtNode) (childList : List String)
    (getAttrs : String → Bag) (expandShape : Bool) :
    List ExtNode → List String → String → NTree → NTree
  | [], _, _, tree => tree
  | c :: rest, parentSegs, parentShort, tree =>
    let tree1 := constructNode sceneRoot childList getAttrs expandShape c
      (parentSegs ++ [c.short]) parentShort tree
    constructChildren sceneRoot childList getAttrs expandShape rest parentSegs
      parentShort tree1

end

/-- Model of `DAGstructure.construct(name)` (default empty `parent`,
`expandShape` given by the instance options): build the root `DAGtree(name,
opt)` with the gathered attributes, compute the descendant list, then run
the recursive scene walk; the root visit itself has `parent == ''` and so
skips the insertion block and immediately recurses into the scene root's
children. -/
def construct (name : String) (sceneRoot : ExtNode) (getAttrs : String → Bag)
    (expandShape : Bool) : NTree :=
  constructChildren sceneRoot (extDescendantShorts sceneRoot) getAttrs expandShape
    sceneRoot.children ["", sceneRoot.short] sceneRoot.short
    (NTree.mk name (some (getAttrs name)) [])

/-! ### Claim C9 -/

/-- Names present after a `find_add`: the old names plus possibly the
inserted one. -/
theorem find_add_names (par nm : String) (opt : Option Bag) :
    ∀ t : NTree, ∀ x ∈ allNodes (find_add t par nm opt).1,
      x.name ∈ (allNodes t).map NTree.name ∨ x.name = nm := by
  intro t
  induction t using NTree.strongInduction with
  | h n o cs IH =>
    intro x hx
    by_cases hpar : n = par
    · rw [show find_add (NTree.mk n o cs) par nm opt
          = (NTree.mk n o (cs ++ [NTree.mk nm opt []]),
             FindAddRet.added [NTree.mk nm opt []]) by simp [find_add, hpar]] at hx
      simp only [allNodes, List.mem_cons] at hx
      rcases hx with rfl | hx
      · exact Or.inl (by simp [allNodes])
      · rcases mem_allNodesList.mp hx with ⟨c, hc, hxc⟩
        rcases List.mem_append.mp hc with hc | hc
        · exact Or.inl (by
            simp only [allNodes, List.map_cons, List.mem_cons]
            exact Or.inr (List.mem_map.mpr ⟨x, mem_allNodesList.mpr ⟨c, hc, hxc⟩, rfl⟩))
        · have hceq : c = NTree.mk nm opt [] := by simpa using hc
          subst hceq
          simp only [allNodes, allNodesList, List.mem_cons, List.not_mem_nil,
            or_false] at hxc
          subst hxc
          exact Or.inr rfl
    · rw [show find_add (NTree.mk n o cs) par nm opt
          = (NTree.mk n o (findAddList cs par nm opt), FindAddRet.zero) by
        simp [find_add, hpar]] at hx
      simp only [allNodes, List.mem_cons] at hx
      rcases hx with rfl | hx
      · exact Or.inl (by simp [allNodes])
      · have hlist : ∀ cs' : List NTree, (∀ c ∈ cs', ∀ y ∈ allNodes (find_add c par nm opt).1,
            y.name ∈ (allNodes c).map NTree.name ∨ y.name = nm) →
            ∀ y ∈ allNodesList (findAddList cs' par nm opt),
              y.name ∈ (allNodesList cs').map NTree.name ∨ y.name = nm := by
          intro cs'
          induction cs' with
          | nil => intro _ y hy; exact absurd hy (by simp [findAddList, allNodesList])
          | cons c rest ihr =>
            intro hall y hy
            rw [show findAddList (c :: rest) par nm opt
                = (find_add c par nm opt).1 :: findAddList rest par nm opt from rfl] at hy
            simp only [allNodesList, List.mem_append] at hy
            rcases hy with hy | hy
            · rcases hall c (by simp) y hy with h1 | h1
              · exact Or.inl (by
                  simp only [allNodesList, List.map_append, List.mem_append]
                  exact Or.inl h1)
              · exact Or.inr h1
            · rcases ihr (fun c' hc' => hall c' (by simp [hc'])) y hy with h1 | h1
              · exact Or.inl (by
                  simp only [allNodesList, List.map_append, List.mem_append]
                  exact Or.inr h1)
              · exact Or.inr h1
        rcases hlist cs (fun c hc => IH c hc) x hx with h1 | h1
        · exact Or.inl (by
            simp only [allNodes, List.map_cons, List.mem_cons]
            exact Or.inr h1)
        · exact Or.inr h1

/-- Invariant of the construct walk: every tree node is the root name or a
short name resolving to a non-shape scene object. -/
def TreeNamesOK (name : String) (sceneRoot : ExtNode) (t : NTree) : Prop :=
  ∀ x ∈ allNodes t, x.name = name ∨ sceneIsShape sceneRoot x.name = false

/-- The construct walk preserves the name invariant: only gate-passing
(non-shape-resolving) short names are ever inserted. -/
theorem constructNode_preserves (name : String) (sceneRoot : ExtNode)
    (childList : List String) (getAttrs : String → Bag) (expandShape : Bool) :
    ∀ (x : ExtNode) (pathSegs : List String) (parShort : String) (tree : NTree),
      TreeNamesOK name sceneRoot tree →
      TreeNamesOK name sceneRoot
        (constructNode sceneRoot childList getAttrs expandShape x pathSegs parShort tree) := by
  intro x
  induction x using ExtNode.strongInductionOn with
  | h s i cs IH =>
    intro pathSegs parShort tree htree
    have hchildren : ∀ (cs' : List ExtNode), (∀ c ∈ cs', ∀ pS pSh t', TreeNamesOK name sceneRoot t' →
        TreeNamesOK name sceneRoot
          (constructNode sceneRoot childList getAttrs expandShape c pS pSh t')) →
        ∀ (pS : List String) (pSh : String) (t' : NTree), TreeNamesOK name sceneRoot t' →
        TreeNamesOK name sceneRoot
          (constructChildren sceneRoot childList getAttrs expandShape cs' pS pSh t') := by
      intro cs'
      induction cs' with
      | nil => intro _ pS pSh t' ht'; exact ht'
      | cons c rest ihr =>
        intro hall pS pSh t' ht'
        rw [show constructChildren sceneRoot childList getAttrs expandShape
            (c :: rest) pS pSh t'
            = constructChildren sceneRoot childList getAttrs expandShape rest pS pSh
                (constructNode sceneRoot childList getAttrs expandShape c
                  (pS ++ [c.short]) pSh t') from rfl]
        exact ihr (fun c' hc' => hall c' (by simp [hc']))
          pS pSh _ (hall c (by simp) (pS ++ [c.short]) pSh t' ht')
    cases hpc : getParentChoice [parShort] pathSegs with
    | none =>
      rw [show constructNode sceneRoot childList getAttrs expandShape
          (ExtNode.mk s i cs) pathSegs parShort tree
          = constructChildren sceneRoot childList getAttrs expandShape cs pathSegs s tree by
        simp [constructNode, hpc]]
      exact hchildren cs (fun c hc => IH c hc) pathSegs s tree htree
    | some par =>
      cases hempty : childList.isEmpty with
      | true =>
        rw [show constructNode sceneRoot childList getAttrs expandShape
            (ExtNode.mk s i cs) pathSegs parShort tree = tree by
          unfold constructNode
          rw [hpc, hempty]
          rfl]
        exact htree
      | false =>
        cases hgate : (childList.contains s && !expandShape
            && !(sceneIsShape sceneRoot s)) with
        | true =>
          have hshape : sceneIsShape sceneRoot s = false := by
            rcases Bool.and_eq_true_iff.mp hgate with ⟨_, h2⟩
            simpa using h2
          rw [show constructNode sceneRoot childList getAttrs expandShape
              (ExtNode.mk s i cs) pathSegs parShort tree
              = constructChildren sceneRoot childList getAttrs expandShape cs pathSegs s
                  ((find_add tree par s (some (getAttrs s))).1) by
            unfold constructNode
            rw [hpc, hempty, hgate]
            rfl]
          refine hchildren cs (fun c hc => IH c hc) pathSegs s _ ?_
          intro y hy
          rcases find_add_names par s (some (getAttrs s)) tree y hy with h1 | h1
          · rcases List.mem_map.mp h1 with ⟨z, hz, hzy⟩
            exact hzy ▸ htree z hz
          · exact Or.inr (h1 ▸ hshape)
        | false =>
          rw [show constructNode sceneRoot childList getAttrs expandShape
              (ExtNode.mk s i cs) pathSegs parShort tree
              = constructChildren sceneRoot childList getAttrs expandShape cs pathSegs s tree by
            unfold constructNode
            rw [hpc, hempty, hgate]
            rfl]
          exact hchildren cs (fun c hc => IH c hc) pathSegs s tree htree

/-- Amended C9, proved on the code: `construct` never captures a shape-kind
object as a tree node — every node of the constructed tree is either the
root name or a short name resolving to a non-shape scene object (shape
geometry is recorded only through the parent's gathered attributes). -/
theorem claim_C9_construct_shape_filter_amended :
    ∀ (name : String) (sceneRoot : ExtNode) (getAttrs : String → Bag)
      (expandShape : Bool),
      ∀ x ∈ allNodes (construct name sceneRoot getAttrs expandShape),
        x.name = name ∨ sceneIsShape sceneRoot x.name = false := by
  intro name sceneRoot getAttrs expandShape
  have hroot : TreeNamesOK name sceneRoot (NTree.mk name (some (getAttrs name)) []) := by
    intro x hx
    simp only [allNodes, allNodesList, List.mem_cons, List.not_mem_nil, or_false] at hx
    subst hx
    exact Or.inl rfl
  have hchildren : ∀ (cs' : List ExtNode) (pS : List String) (pSh : String) (t' : NTree),
      TreeNamesOK name sceneRoot t' →
      TreeNamesOK name sceneRoot
        (constructChildren sceneRoot (extDescendantShorts sceneRoot) getAttrs expandShape
          cs' pS pSh t') := by
    intro cs'
    induction cs' with
    | nil => intro pS pSh t' ht'; exact ht'
    | cons c rest ihr =>
      intro pS pSh t' ht'
      rw [show constructChildren sceneRoot (extDescendantShorts sceneRoot) getAttrs
          expandShape (c :: rest) pS pSh t'
          = constructChildren sceneRoot (extDescendantShorts sceneRoot) getAttrs
              expandShape rest pS pSh
              (constructNode sceneRoot (extDescendantShorts sceneRoot) getAttrs
                expandShape c (pS ++ [c.short]) pSh t') from rfl]
      exact ihr pS pSh _
        (constructNode_preserves name sceneRoot (extDescendantShorts sceneRoot)
          getAttrs expandShape c (pS ++ [c.short]) pSh t' ht')
  exact hchildren sceneRoot.children ["", sceneRoot.short] sceneRoot.short _ hroot

/-- The shape object of the C9 counterexample scene. -/
def exSceneShape : ExtNode := ExtNode.mk "s" true []

/-- The C9 counterexample scene: root `r` with a non-shape child `a` and a
shape child `s`. -/
def exScene : ExtNode :=
  ExtNode.mk "r" false [ExtNode.mk "a" false [], exSceneShape]

/-- Counterexample to C9 as stated: in the concrete scene the shape object
`s` is a visited descendant, yet `construct` does not capture it as a tree
node — the constructed tree contains exactly the root and the non-shape
child `a` (the shape gate in `__construct` inserts only non-shape objects). -/
theorem claim_C9_construct_shape_filter_counterexample :
    (construct "r" exScene (fun _ => []) false
        = NTree.mk "r" (some []) [NTree.mk "a" (some []) []])
    ∧ exSceneShape ∈ extAllNodesList exScene.children
    ∧ exSceneShape.isShape = true
    ∧ (∀ x ∈ allNodes (construct "r" exScene (fun _ => []) false), x.name ≠ "s") := by
  refine ⟨rfl, ?_, rfl, ?_⟩
  · simp [exScene, exSceneShape, extAllNodesList, extAllNodes]
  · intro x hx
    rw [show construct "r" exScene (fun _ => []) false
        = NTree.mk "r" (some []) [NTree.mk "a" (some []) []] from rfl] at hx
    simp only [allNodes, allNodesList, List.mem_cons, List.append_nil,
      List.not_mem_nil, or_false] at hx
    rcases hx with rfl | rfl <;> decide

/-- Witness for the amended C9 at the concrete scene: the captured non-root
node `a` indeed resolves to a non-shape object. -/
theorem claim_C9_construct_shape_filter_amended_witness :
    (NTree.mk "a" (some []) []).name = "r"
    ∨ sceneIsShape exScene (NTree.mk "a" (some []) []).name = false :=
  claim_C9_construct_shape_filter_amended "r" exScene (fun _ => []) false
    (NTree.mk "a" (some []) [])
    (by
      rw [show construct "r" exScene (fun _ => []) false
          = NTree.mk "r" (some []) [NTree.mk "a" (some []) []] from rfl]
      simp [allNodes, allNodesList])

/-! ### Path-string lemmas for the round trip -/

@[simp] theorem String.data_mk (l : List Char) : (String.mk l).data = l := rfl

theorem String.mk_data (s : String) : String.mk s.data = s := by
  cases s
  rfl

/-- The splitter never returns the empty list of pieces. -/
theorem splitChars_ne_nil (sep : Char) : ∀ l : List Char, splitChars sep l ≠ [] := by
  intro l
  induction l with
  | nil => simp [splitChars]
  | cons c rest ih =>
    by_cases h : c = sep
    · simp [splitChars, h]
    · simp only [splitChars, if_neg h]
      cases hs : splitChars sep rest with
      | nil => simp
      | cons p ps => simp

/-- Every piece of the splitter is free of the separator. -/
theorem splitChars_pieces (sep : Char) :
    ∀ l : List Char, ∀ p ∈ splitChars sep l, sep ∉ p := by
  intro l
  induction l with
  | nil =>
    intro p hp
    simp only [splitChars, List.mem_cons, List.not_mem_nil, or_false] at hp
    subst hp
    simp
  | cons c rest ih =>
    intro p hp
    by_cases h : c = sep
    · simp only [splitChars, if_pos h, List.mem_cons] at hp
      rcases hp with rfl | hp
      · simp
      · exact ih p hp
    · simp only [splitChars, if_neg h] at hp
      cases hs : splitChars sep rest with
      | nil => exact absurd hs (splitChars_ne_nil sep rest)
      | cons q qs =>
        rw [hs] at hp
        simp only [List.mem_cons] at hp
        rcases hp with rfl | hp
        · intro hm
          rcases List.mem_cons.mp hm with rfl | hm
          · exact h rfl
          · exact ih q (by simp [hs]) hm
        · exact ih p (by simp [hs, hp])

/-- Prepending separator-free characters extends the first piece. -/
theorem splitChars_append_free (sep : Char) :
    ∀ (p r : List Char), sep ∉ p →
      splitChars sep (p ++ r) = (p ++ (splitChars sep r).headD []) :: (splitChars sep r).tail := by
  intro p
  induction p with
  | nil =>
    intro r _
    simp only [List.nil_append]
    cases hs : splitChars sep r with
    | nil => exact absurd hs (splitChars_ne_nil sep r)
    | cons q qs => simp
  | cons c p' ih =>
    intro r hfree
    have hc : c ≠ sep := by
      intro h
      exact hfree (h ▸ List.mem_cons_self c p')
    have hp' : sep ∉ p' := fun h => hfree (List.mem_cons_of_mem _ h)
    simp only [List.cons_append, splitChars, if_neg hc, List.append_eq]
    rw [ih r hp']

/-- The character data of a path-join: one separator-prefixed block per
segment. -/
theorem pathStr_data :
    ∀ (L : List String) (init : String),
      (L.foldl (fun acc s => acc ++ "|" ++ s) init).data
        = init.data ++ (L.map (fun s => '|' :: s.data)).flatten := by
  intro L
  induction L with
  | nil => intro init; simp
  | cons s L' ih =>
    intro init
    simp only [List.foldl_cons, ih, List.map_cons, List.flatten_cons]
    simp [String.data_append]

/-- Splitting a flattened block list recovers the pieces. -/
theorem splitChars_flatten :
    ∀ L : List String, (∀ s ∈ L, '|' ∉ s.data) →
      splitChars '|' ((L.map (fun s => '|' :: s.data)).flatten)
        = [] :: L.map String.data := by
  intro L
  induction L with
  | nil => intro _; simp [splitChars]
  | cons s L' ih =>
    intro hL
    simp only [List.map_cons, List.flatten_cons, List.cons_append]
    rw [show splitChars '|'
        ('|' :: (s.data ++ (L'.map (fun s => '|' :: s.data)).flatten))
        = [] :: splitChars '|' (s.data ++ (L'.map (fun s => '|' :: s.data)).flatten) by
      simp [splitChars]]
    rw [splitChars_append_free '|' s.data _ (hL s (by simp))]
    rw [ih (fun s' hs' => hL s' (by simp [hs']))]
    simp

/-- Splitting a pipe-join recovers the segments (after the leading empty
piece), provided every segment is pipe-free. -/
theorem splitChars_strOfSegs (L : List String) (hL : ∀ s ∈ L, '|' ∉ s.data) :
    splitChars '|' (strOfSegs L).data = [] :: L.map String.data := by
  have hdata : (strOfSegs L).data = (L.map (fun s => '|' :: s.data)).flatten := by
    have := pathStr_data L ""
    simpa [strOfSegs] using this
  rw [hdata]
  exact splitChars_flatten L hL

/-- Splitting a pipe-join in string form. -/
theorem pySplit_strOfSegs (L : List String) (hL : ∀ s ∈ L, '|' ∉ s.data) :
    pySplit (strOfSegs L) '|' = "" :: L := by
  unfold pySplit
  rw [splitChars_strOfSegs L hL]
  simp only [List.map_cons, List.map_map]
  rw [show (String.mk ∘ String.data) = id from funext String.mk_data, List.map_id]

/-- The last segment of a pipe-join. -/
theorem lastSeg_strOfSegs (L : List String) (s : String)
    (hL : ∀ x ∈ L ++ [s], '|' ∉ x.data) :
    lastSeg (strOfSegs (L ++ [s])) = s := by
  unfold lastSeg
  rw [pySplit_strOfSegs _ hL,
    show ("" : String) :: (L ++ [s]) = (("" :: L) ++ [s]) from rfl]
  exact List.getLastD_concat _ _ _

/-- The segment list the export walk feeds to `find_named_element`. -/
theorem segsOf_strOfSegs (L : List String) (hL : ∀ s ∈ L, '|' ∉ s.data) :
    (pySplit (strOfSegs L) '|').drop 1 = L := by
  rw [pySplit_strOfSegs L hL]
  rfl

/-- Pipe-joins of pipe-free segment lists are injective. -/
theorem strOfSegs_injective (L L' : List String)
    (hL : ∀ s ∈ L, '|' ∉ s.data) (hL' : ∀ s ∈ L', '|' ∉ s.data)
    (h : strOfSegs L = strOfSegs L') : L = L' := by
  have h1 := pySplit_strOfSegs L hL
  have h2 := pySplit_strOfSegs L' hL'
  rw [h] at h1
  rw [h1] at h2
  simpa using h2

/-- The default-last of a nonempty list is a member. -/
theorem getLastD_mem : ∀ (l : List String) (a : String), (a :: l).getLastD "" ∈ a :: l := by
  intro l
  induction l with
  | nil => intro a; simp [List.getLastD]
  | cons b l' ih =>
    intro a
    rw [List.getLastD_cons]
    exact List.mem_cons_of_mem _ (ih b)

/-- The last path segment is always pipe-free. -/
theorem lastSeg_pipeFree (s : String) : '|' ∉ (lastSeg s).data := by
  unfold lastSeg
  have hmem : ∀ p ∈ pySplit s '|', '|' ∉ p.data := by
    intro p hp
    rcases List.mem_map.mp hp with ⟨l, hl, hlp⟩
    subst hlp
    exact splitChars_pieces '|' s.data l hl
  cases hps : pySplit s '|' with
  | nil => simp
  | cons p ps => exact hmem _ (hps ▸ getLastD_mem ps p)

/-- A pipe-free string never equals a nonempty pipe-join. -/
theorem pipeFree_ne_strOfSegs (s x : String) (L : List String)
    (hs : '|' ∉ s.data) : s ≠ strOfSegs (x :: L) := by
  intro h
  have hdata : (strOfSegs (x :: L)).data
      = ((x :: L).map (fun y => '|' :: y.data)).flatten := by
    have := pathStr_data (x :: L) ""
    simpa [strOfSegs] using this
  have : '|' ∈ s.data := by
    rw [h, hdata]
    simp
  exact hs this

/-- Splitting a separator-free character list is the identity piece. -/
theorem splitChars_of_free (sep : Char) :
    ∀ l : List Char, sep ∉ l → splitChars sep l = [l] := by
  intro l
  induction l with
  | nil => intro _; rfl
  | cons c l' ih =>
    intro h
    have hc : c ≠ sep := fun he => h (he ▸ List.mem_cons_self c l')
    have hl' : sep ∉ l' := fun hm => h (List.mem_cons_of_mem _ hm)
    simp only [splitChars, if_neg hc, ih hl']

/-- A pipe-free string's last segment is itself. -/
theorem lastSeg_of_pipeFree (s : String) (hs : '|' ∉ s.data) : lastSeg s = s := by
  unfold lastSeg pySplit
  rw [splitChars_of_free '|' s.data hs]
  simp [String.mk_data, List.getLastD]

/-- Appending one segment to a pipe-join. -/
theorem strOfSegs_append (L : List String) (s : String) :
    strOfSegs (L ++ [s]) = strOfSegs L ++ "|" ++ s := by
  unfold strOfSegs
  rw [List.foldl_append]
  rfl

/-- Deeper paths are strictly longer. -/
theorem length_path_extend (a s : String) :
    a.length < (a ++ "|" ++ s).length := by
  simp only [String.length_append]
  have h1 : ("|" : String).length = 1 := rfl
  omega

/-! ### exportDocument (`DAGstructure.export_xml`) -/

/-- The `for ch in i_child` loop of `export_xml`: one fresh node tag per
listed child, carrying the child's resolved full path (`DAGtree.fullpath`
queries the external scene) and its bag; `none` models the exception when a
child's name does not resolve. -/
def childElems (resolve : String → Option String) : List NTree → Option (List Elem)
  | [] => some []
  | c :: cs =>
    match resolve c.name with
    | Option.none => Option.none
    | some cfp => (childElems resolve cs).map (fun l => create_new_nodeTag cfp c.opt :: l)

/-- One iteration of the `export_xml` traversal loop over the document
accumulated so far: locate-or-create the element for the yielded node's
resolved full path, carrying the node's bag, then append the fresh child
tags at that element (`root_obj != ''` is always true, `DAGtree` having no
string equality).  `none` models the exception when a name fails to resolve
(`utils.getNode` returns `None` and the subsequent split crashes); the
partially mutated document is discarded in that case, exactly as the source
never reaches `output_file` when the exception propagates. -/
def exportStep (resolve : String → Option String) (doc : Elem)
    (p : NTree × List NTree) : Option Elem :=
  match resolve p.1.name with
  | Option.none => Option.none
  | some fp =>
    match childElems resolve p.2 with
    | Option.none => Option.none
    | some apps =>
      some (findNamedElement doc "" ((pySplit fp '|').drop 1) p.1.opt apps)

/-- The traversal loop of `export_xml`. -/
def exportFold (resolve : String → Option String) :
    List (NTree × List NTree) → Elem → Option Elem
  | [], doc => some doc
  | p :: rest, doc =>
    match exportStep resolve doc p with
    | Option.none => Option.none
    | some doc' => exportFold resolve rest doc'

/-- Model of `DAGstructure.export_xml` up to the written document: the root
`dagStructure` element after the full traversal (file naming,
pretty-printing and `set_xml_path` are not modelled). -/
def export_xml (t : NTree) (resolve : String → Option String) : Option Elem :=
  exportFold resolve (traverse t true) (Elem.mk TAG_ROOT [] [])

mutual

/-- The node tag the export produces for a tree node whose resolved full
path extends the string prefix `pre`: exactly `create_new_nodeTag` of the
extended path and the node's bag, with the completed child tags appended
after the option tags. -/
def docNode (pre : String) : NTree → Elem
  | .mk n o cs =>
    Elem.mk TAG_NODE
      [("name", lastSeg (pre ++ "|" ++ lastSeg n)), ("fullpath", pre ++ "|" ++ lastSeg n)]
      (optionElems o ++ docNodeList (pre ++ "|" ++ lastSeg n) cs)

/-- The completed child tags of a forest at a prefix. -/
def docNodeList (pre : String) : List NTree → List Elem
  | [] => []
  | c :: cs => docNode pre c :: docNodeList pre cs

end

/-- The whole exported document of a tree. -/
def exportDoc (t : NTree) : Elem :=
  Elem.mk TAG_ROOT [] [docNode "" t]

/-! ### importDocument (`DAGstructure.import_xml`) -/

/-- Extract the (name, value, type) attribute triples of option tags;
`none` models the `KeyError` on a malformed option tag. -/
def optTriplesGo : List Elem → Option (List (String × String × String))
  | [] => some []
  | o :: os =>
    match o.attrGet "name", o.attrGet "value", o.attrGet "type" with
    | some k, some v, some ty => (optTriplesGo os).map (fun l => (k, v, ty) :: l)
    | _, _, _ => Option.none

/-- Model of `restore_option(elem.findall('option'))`. -/
def restoreOptionElem (e : Elem) : Option Bag :=
  match optTriplesGo (findallTag e TAG_OPT) with
  | Option.none => Option.none
  | some triples => restoreOption triples

mutual

/-- Model of `import_xml.__construct(elem, parent_node)`: read the
element's `fullpath` (modelled as failing when absent), decode its option
tags, insert via `find_add` under the node named `parent_node`, then recurse
into the nested node tags with this element's full path as the parent
name. -/
def importNode (root : NTree) (parentName : String) : Elem → Option NTree
  | .mk tg attrs children =>
    match (Elem.mk tg attrs children).attrGet "fullpath" with
    | Option.none => Option.none
    | some fp =>
      match restoreOptionElem (Elem.mk tg attrs children) with
      | Option.none => Option.none
      | some bag =>
        importList ((find_add root parentName fp (some bag)).1) fp children

/-- The `for child_elem in elem.findall('node')` recursion, with the tag
filter of `findall` fused into the walk (identical order and effect). -/
def importList (root : NTree) (parentName : String) : List Elem → Option NTree
  | [] => some root
  | e :: es =>
    if e.tag == TAG_NODE then
      match importNode root parentName e with
      | Option.none => Option.none
      | some root' => importList root' parentName es
    else importList root parentName es

end

/-- Model of `DAGstructure.import_xml` from the parsed document element:
take the first node tag (`root.find('node')`), read its `name` (the tree
root name), decode its options into the fresh root `DAGtree`, then insert
every nested node tag recursively with the root name as the first parent.
`none` models the exceptions on malformed documents. -/
def import_xml (doc : Elem) : Option NTree :=
  match (findallTag doc TAG_NODE).head? with
  | Option.none => Option.none
  | some node =>
    match node.attrGet "name" with
    | Option.none => Option.none
    | some name =>
      match restoreOptionElem node with
      | Option.none => Option.none
      | some bag =>
        importList (NTree.mk name (some bag) []) name node.children

/-- The normalized bag an import produces (absent bags import as empty). -/
def bagOf (o : Option Bag) : Bag := o.getD []

mutual

/-- The tree `import_xml` rebuilds for an exported subtree at string prefix
`pre`: node names are the document full paths, bags are the decoded dicts. -/
def impNode (pre : String) : NTree → NTree
  | .mk n o cs =>
    NTree.mk (pre ++ "|" ++ lastSeg n) (some (bagOf o))
      (impNodeList (pre ++ "|" ++ lastSeg n) cs)

/-- Import image of a forest. -/
def impNodeList (pre : String) : List NTree → List NTree
  | [] => []
  | c :: cs => impNode pre c :: impNodeList pre cs

end

/-- View of a tree for the round-trip comparison: (path-suffix, attribute
bag) at every node, children in order — equality of views is sameness of
parent/child topology together with the per-depth (suffix, bag) multisets
(it is order-exact, hence stronger). -/
inductive ViewTree : Type where
  | mk (suffix : String) (bag : Bag) (children : List ViewTree)

mutual

/-- The view of a tree. -/
def view : NTree → ViewTree
  | .mk n o cs => ViewTree.mk (lastSeg n) (bagOf o) (viewList cs)

/-- The view of a forest. -/
def viewList : List NTree → List ViewTree
  | [] => []
  | c :: cs => view c :: viewList cs

end

/-! ### Value and bag round-trip lemmas -/

/-- Attribute values the text codec round-trips: scalars (floats restricted
to the exactly-decimal domain where the rendered text re-parses); container
values are excluded — the counterexample below shows they do not survive. -/
def GoodVal (v : PyValue) : Prop :=
  match v with
  | .float q => parseFloat (floatRepr q) = some q
  | .list _ => False
  | .tuple _ => False
  | _ => True

/-- A bag the codec round-trips: distinct keys (a dict invariant) and
round-trippable values. -/
def GoodBag (o : Option Bag) : Prop :=
  (bagOf o).Pairwise (fun a b => a.1 ≠ b.1) ∧ ∀ kv ∈ bagOf o, GoodVal kv.2

/-- The fuel-based digit renderer agrees with the mathematical digit
expansion whenever the fuel suffices. -/
theorem natDigitsAux_eq :
    ∀ (fuel n : ℕ), n ≤ fuel →
      natDigitsAux fuel n = ((Nat.digits 10 n).reverse).map Nat.digitChar := by
  intro fuel
  induction fuel with
  | zero =>
    intro n hn
    interval_cases n
    simp [natDigitsAux]
  | succ fuel ih =>
    intro n hn
    cases hn0 : n with
    | zero => simp [natDigitsAux]
    | succ m =>
      rw [← hn0]
      have hpos : 0 < n := hn0 ▸ Nat.succ_pos m
      rw [show natDigitsAux (fuel + 1) n
          = natDigitsAux fuel (n / 10) ++ [Nat.digitChar (n % 10)] by
        rw [hn0]; rfl]
      rw [ih (n / 10) (by
        have := Nat.div_lt_self hpos (by norm_num : 1 < 10)
        omega)]
      rw [Nat.digits_def' (by norm_num : 1 < 10) hpos]
      simp

/-- Digit characters decode to their digit. -/
theorem digitVal_digitChar (d : ℕ) (hd : d < 10) :
    digitVal (Nat.digitChar d) = d ∧ isDigitCh (Nat.digitChar d) = true := by
  interval_cases d <;> exact ⟨rfl, rfl⟩

/-- Horner evaluation of most-significant-first digits. -/
theorem foldl_digits :
    ∀ (M : List ℕ) (a : ℕ),
      M.foldl (fun x d => x * 10 + d) a = a * 10 ^ M.length + Nat.ofDigits 10 M.reverse := by
  intro M
  induction M with
  | nil => intro a; simp [Nat.ofDigits]
  | cons d M' ih =>
    intro a
    simp only [List.foldl_cons, ih, List.reverse_cons, List.length_cons]
    rw [Nat.ofDigits_append]
    simp [Nat.ofDigits_singleton]
    ring

/-- Replacing decoded digit characters by their digits in the fold. -/
theorem foldl_digitChar :
    ∀ (M : List ℕ), (∀ d ∈ M, d < 10) → ∀ a : ℕ,
      M.foldl (fun x d => x * 10 + digitVal (Nat.digitChar d)) a
        = M.foldl (fun x d => x * 10 + d) a := by
  intro M
  induction M with
  | nil => intro _ a; rfl
  | cons d M' ih =>
    intro hM a
    simp only [List.foldl_cons, (digitVal_digitChar d (hM d (by simp))).1]
    exact ih (fun d' hd' => hM d' (by simp [hd'])) _

/-- Every character of the digit rendering is a digit character. -/
theorem natDigitsStr_digits (m : ℕ) :
    ∀ c ∈ (natDigitsStr m).data, isDigitCh c = true := by
  intro c hc
  by_cases hm : m = 0
  · subst hm
    simp only [natDigitsStr, if_pos rfl] at hc
    rcases List.mem_cons.mp hc with rfl | h
    · rfl
    · exact absurd h (by simp)
  · rw [show natDigitsStr m = String.mk (natDigitsAux m m) by simp [natDigitsStr, hm]] at hc
    rw [natDigitsAux_eq m m (le_refl m)] at hc
    simp only [String.data_mk] at hc
    rcases List.mem_map.mp hc with ⟨d, hd, hdc⟩
    have hd10 : d < 10 :=
      Nat.digits_lt_base (by norm_num) (List.mem_reverse.mp hd)
    exact hdc ▸ (digitVal_digitChar d hd10).2

/-- Parsing the rendered digits of a natural recovers it. -/
theorem parseNatList_natDigits (m : ℕ) :
    parseNatList (natDigitsStr m).data = some m := by
  by_cases hm : m = 0
  · subst hm
    rfl
  · rw [show natDigitsStr m = String.mk (natDigitsAux m m) by simp [natDigitsStr, hm]]
    rw [natDigitsAux_eq m m (le_refl m)]
    have hne : Nat.digits 10 m ≠ [] := Nat.digits_ne_nil_iff_ne_zero.mpr hm
    unfold parseNatList
    rw [if_pos]
    · congr 1
      rw [List.foldl_map]
      rw [foldl_digitChar _ (fun d hd =>
        Nat.digits_lt_base (by norm_num) (List.mem_reverse.mp hd)) 0]
      rw [foldl_digits]
      simp [Nat.ofDigits_digits]
    · constructor
      · simp only [String.data_mk, ne_eq, List.map_eq_nil_iff, List.reverse_eq_nil_iff]
        exact hne
      · rw [List.all_eq_true]
        intro c hc
        rcases List.mem_map.mp hc with ⟨d, hd, hdc⟩
        have hd10 : d < 10 :=
          Nat.digits_lt_base (by norm_num) (List.mem_reverse.mp hd)
        exact hdc ▸ (digitVal_digitChar d hd10).2

/-- The digit rendering is never the empty string. -/
theorem natDigitsStr_ne_nil (m : ℕ) : (natDigitsStr m).data ≠ [] := by
  by_cases hm : m = 0
  · subst hm; simp [natDigitsStr]
  · simp only [natDigitsStr, if_neg hm, String.data_mk]
    rw [natDigitsAux_eq m m (le_refl m)]
    simp only [ne_eq, List.map_eq_nil_iff, List.reverse_eq_nil_iff]
    exact Nat.digits_ne_nil_iff_ne_zero.mpr hm

/-- Parsing the Python text of an int recovers it. -/
theorem parseInt_pyIntRepr (n : Int) : parseInt (pyIntRepr n) = some n := by
  by_cases hneg : n < 0
  · rw [show pyIntRepr n = "-" ++ natDigitsStr n.natAbs by simp [pyIntRepr, hneg]]
    unfold parseInt
    rw [show ("-" ++ natDigitsStr n.natAbs).data = '-' :: (natDigitsStr n.natAbs).data by
      rw [String.data_append]; rfl]
    simp only [if_pos rfl]
    rw [parseNatList_natDigits]
    have he : (-((n.natAbs : ℕ) : Int)) = n := by omega
    simp [he, abs_of_neg hneg]
  · rw [show pyIntRepr n = natDigitsStr n.natAbs by simp [pyIntRepr, hneg]]
    unfold parseInt
    cases hd : (natDigitsStr n.natAbs).data with
    | nil => exact absurd hd (natDigitsStr_ne_nil _)
    | cons c rest =>
      have hdig : isDigitCh c = true :=
        natDigitsStr_digits n.natAbs c (by simp [hd])
      have hc1 : ¬(c = '-') := by
        intro h
        rw [h] at hdig
        exact absurd hdig (by decide)
      have hc2 : ¬(c = '+') := by
        intro h
        rw [h] at hdig
        exact absurd hdig (by decide)
      simp only [if_neg hc1, if_neg hc2]
      rw [← hd, parseNatList_natDigits]
      have he : (((n.natAbs : ℕ) : Int)) = n := by omega
      simp [he]

/-- Round trip of a single value through the option codec. -/
theorem restoreValue_roundtrip (v : PyValue) (h : GoodVal v) :
    restoreValue (typeName v) (pyStr v) = some v := by
  cases v with
  | bool b => cases b <;> rfl
  | int n =>
    show (parseInt (pyStr (PyValue.int n))).map PyValue.int = some (PyValue.int n)
    rw [show pyStr (PyValue.int n) = pyIntRepr n from rfl, parseInt_pyIntRepr]
    rfl
  | float q =>
    show (parseFloat (pyStr (PyValue.float q))).map PyValue.float = some (PyValue.float q)
    rw [show pyStr (PyValue.float q) = floatRepr q from rfl]
    rw [show parseFloat (floatRepr q) = some q from h]
    rfl
  | str s => rfl
  | none => rfl
  | list xs => exact h.elim
  | tuple xs => exact h.elim

/-- Inserting a key absent from the dict appends. -/
theorem dictInsert_fresh (d : Bag) (k : String) (v : PyValue)
    (h : d.any (fun p => p.1 == k) = false) : dictInsert d k v = d ++ [(k, v)] := by
  simp [dictInsert, h]

/-- Decoding the encoded options of a good bag reproduces the bag after the
accumulator. -/
theorem restoreOptionGo_enc :
    ∀ bag : Bag, ∀ acc : Bag,
      bag.Pairwise (fun a b => a.1 ≠ b.1) → (∀ kv ∈ bag, GoodVal kv.2) →
      (∀ kv ∈ bag, acc.any (fun p => p.1 == kv.1) = false) →
      restoreOptionGo (bag.map (fun kv => (kv.1, pyStr kv.2, typeName kv.2))) acc
        = some (acc ++ bag) := by
  intro bag
  induction bag with
  | nil => intro acc _ _ _; simp [restoreOptionGo]
  | cons kv rest ih =>
    intro acc hpw hgood hfresh
    have hv := restoreValue_roundtrip kv.2 (hgood kv (by simp))
    simp only [List.map_cons, restoreOptionGo, hv]
    rw [dictInsert_fresh acc kv.1 kv.2 (hfresh kv (by simp))]
    rw [ih (acc ++ [kv]) (List.Pairwise.of_cons hpw)
      (fun kv' hkv' => hgood kv' (by simp [hkv']))
      (fun kv' hkv' => by
        rw [List.any_append]
        have h1 : acc.any (fun p => p.1 == kv'.1) = false :=
          hfresh kv' (by simp [hkv'])
        have h2 : kv.1 ≠ kv'.1 := (List.pairwise_cons.mp hpw).1 kv' hkv'
        simp [h1, h2])]
    simp

/-- Every option tag written for a bag is option-tagged. -/
theorem optionElems_tags (o : Option Bag) : ∀ e ∈ optionElems o, e.tag = TAG_OPT := by
  intro e he
  cases o with
  | none => exact absurd he (by simp [optionElems])
  | some bag =>
    rcases List.mem_map.mp he with ⟨kv, _, hkv⟩
    rw [← hkv]
    rfl

/-- Every completed child tag is node-tagged. -/
theorem docNodeList_tags (pre : String) :
    ∀ cs : List NTree, ∀ e ∈ docNodeList pre cs, e.tag = TAG_NODE := by
  intro cs
  induction cs with
  | nil => intro e he; exact absurd he (by simp [docNodeList])
  | cons c cs' ih =>
    intro e he
    rw [show docNodeList pre (c :: cs') = docNode pre c :: docNodeList pre cs' from rfl] at he
    rcases List.mem_cons.mp he with rfl | he
    · cases c; rfl
    · exact ih e he

/-- The option tags of a completed node tag are exactly the bag encoding. -/
theorem findallTag_docNode_opt (pre : String) (n : String) (o : Option Bag)
    (cs : List NTree) :
    findallTag (docNode pre (NTree.mk n o cs)) TAG_OPT = optionElems o := by
  unfold findallTag
  rw [show (docNode pre (NTree.mk n o cs)).children
      = optionElems o ++ docNodeList (pre ++ "|" ++ lastSeg n) cs from rfl]
  rw [List.filter_append]
  rw [List.filter_eq_self.mpr (fun e he => by
    simp [optionElems_tags o e he])]
  rw [List.filter_eq_nil_iff.mpr (fun e he => by
    have := docNodeList_tags _ cs e he
    simp [this, TAG_NODE, TAG_OPT])]
  simp

/-- Extracting the triples of an encoded bag. -/
theorem optTriplesGo_optionElems (o : Option Bag) :
    optTriplesGo (optionElems o)
      = some ((bagOf o).map (fun kv => (kv.1, pyStr kv.2, typeName kv.2))) := by
  cases o with
  | none => rfl
  | some bag =>
    show optTriplesGo (bag.map _) = some (bag.map _)
    induction bag with
    | nil => rfl
    | cons kv rest ih =>
      simp only [List.map_cons]
      rw [show optTriplesGo ((Elem.mk TAG_OPT
            [("name", kv.1), ("value", pyStr kv.2), ("type", typeName kv.2)] [])
          :: rest.map (fun kv => Elem.mk TAG_OPT
            [("name", kv.1), ("value", pyStr kv.2), ("type", typeName kv.2)] []))
          = (optTriplesGo (rest.map (fun kv => Elem.mk TAG_OPT
              [("name", kv.1), ("value", pyStr kv.2), ("type", typeName kv.2)] []))).map
              (fun l => (kv.1, pyStr kv.2, typeName kv.2) :: l) from rfl]
      rw [ih]
      rfl

/-- Decoding the option tags of a completed node tag restores its bag. -/
theorem restoreOptionElem_docNode (pre : String) (n : String) (o : Option Bag)
    (cs : List NTree) (h : GoodBag o) :
    restoreOptionElem (docNode pre (NTree.mk n o cs)) = some (bagOf o) := by
  unfold restoreOptionElem
  rw [findallTag_docNode_opt, optTriplesGo_optionElems]
  show restoreOption _ = _
  unfold restoreOption
  rw [restoreOptionGo_enc (bagOf o) [] h.1 h.2 (fun kv _ => rfl)]
  simp

/-! ### Well-formedness hypotheses for the round trip -/

/-- The external name resolution is coherent with the tree: every node's
name resolves to the pipe-join of its suffix path (what Maya returns when
the captured tree matches the scene). -/
inductive WellPathed (resolve : String → Option String) : List String → NTree → Prop where
  | mk : ∀ (pre : List String) (n : String) (o : Option Bag) (cs : List NTree),
      resolve n = some (strOfSegs (pre ++ [lastSeg n])) →
      (∀ c ∈ cs, WellPathed resolve (pre ++ [lastSeg n]) c) →
      WellPathed resolve pre (NTree.mk n o cs)

/-- Unique sibling short names (suffixes) at every level. -/
inductive UniqSibs : NTree → Prop where
  | mk : ∀ (n : String) (o : Option Bag) (cs : List NTree),
      cs.Pairwise (fun a b => lastSeg a.name ≠ lastSeg b.name) →
      (∀ c ∈ cs, UniqSibs c) →
      UniqSibs (NTree.mk n o cs)

/-- Round-trippable bags at every node. -/
def GoodBags (t : NTree) : Prop := ∀ x ∈ allNodes t, GoodBag x.opt

/-! ### Export correctness: the zipper through the partial document -/

/-- One level of document context: an element with a hole among its
children. -/
structure Frame where
  tag : String
  attrs : List (String × String)
  left : List Elem
  right : List Elem

/-- Fill a single frame. -/
def plug1 (f : Frame) (e : Elem) : Elem :=
  Elem.mk f.tag f.attrs (f.left ++ e :: f.right)

/-- Fill a context stack, outermost frame first. -/
def plug : List Frame → Elem → Elem
  | [], e => e
  | f :: fs, e => plug1 f (plug fs e)

/-- What `find_named_element`'s inner search accepts. -/
def NodeMatch (fp : String) (x : Elem) : Prop :=
  x.tag = TAG_NODE ∧ x.attrGet "fullpath" = some fp

theorem isNodeWithFP_iff (fp : String) (x : Elem) :
    isNodeWithFP fp x = true ↔ NodeMatch fp x := by
  simp [isNodeWithFP, NodeMatch, Bool.and_eq_true, beq_iff_eq]

/-- A context descends along a segment list when, at every level, the hole
is the first matching node child for the accumulated prefix. -/
def Descending : Elem → String → List Frame → List String → Prop
  | e, pre, f :: fs, s :: ss =>
      NodeMatch (pre ++ "|" ++ s) (plug fs e)
      ∧ (∀ x ∈ f.left, ¬ NodeMatch (pre ++ "|" ++ s) x)
      ∧ Descending e (pre ++ "|" ++ s) fs ss
  | _, _, [], [] => True
  | _, _, _, _ => False

theorem plug_append (fs : List Frame) (f : Frame) (e : Elem) :
    plug (fs ++ [f]) e = plug fs (plug1 f e) := by
  induction fs with
  | nil => rfl
  | cons f₀ fs ih => simp [plug, ih]

/-- Accumulated prefix of a descent. -/
def pathStrAcc (pre : String) (ss : List String) : String :=
  ss.foldl (fun a s => a ++ "|" ++ s) pre

theorem pathStrAcc_nil (pre : String) : pathStrAcc pre [] = pre := rfl

theorem pathStrAcc_strOfSegs (L : List String) : pathStrAcc "" L = strOfSegs L := rfl

/-- Skipping non-matching children in the inner search. -/
theorem findInChildren_append (fp : String) (rest : List String) (opt : Option Bag)
    (app : List Elem) :
    ∀ (l m : List Elem), (∀ x ∈ l, ¬ NodeMatch fp x) →
      findInChildren (l ++ m) fp rest opt app
        = (findInChildren m fp rest opt app).map (fun r => l ++ r) := by
  intro l
  induction l with
  | nil =>
    intro m _
    cases h : findInChildren m fp rest opt app <;> simp [h]
  | cons c l' ih =>
    intro m hno
    have hc : isNodeWithFP fp c = false := by
      rcases h : isNodeWithFP fp c with _ | _
      · rfl
      · exact absurd ((isNodeWithFP_iff fp c).mp h) (hno c (by simp))
    rw [show (c :: l') ++ m = c :: (l' ++ m) from rfl]
    rw [show findInChildren (c :: (l' ++ m)) fp rest opt app
        = (findInChildren (l' ++ m) fp rest opt app).map (fun r => c :: r) by
      simp [findInChildren, hc]]
    rw [ih m (fun x hx => hno x (by simp [hx]))]
    cases h : findInChildren m fp rest opt app <;> simp [h]

/-- The accepted child stops the inner search in place. -/
theorem findInChildren_hit (fp : String) (rest : List String) (opt : Option Bag)
    (app : List Elem) (e : Elem) (r : List Elem) (he : NodeMatch fp e) :
    findInChildren (e :: r) fp rest opt app
      = some (findNamedElement e fp rest opt app :: r) := by
  simp [findInChildren, (isNodeWithFP_iff fp e).mpr he]

/-- Walking a descending context locates the hole and appends there. -/
theorem plugFind (opt : Option Bag) (app : List Elem) :
    ∀ (fs : List Frame) (ss : List String) (pre : String) (e : Elem),
      Descending e pre fs ss →
      findNamedElement (plug fs e) pre ss opt app
        = plug fs (Elem.mk e.tag e.attrs (e.children ++ app)) := by
  intro fs
  induction fs with
  | nil =>
    intro ss pre e hD
    cases ss with
    | nil =>
      cases e
      simp [plug, findNamedElement]
    | cons s ss' => exact hD.elim
  | cons f fs ih =>
    intro ss pre e hD
    cases ss with
    | nil => exact hD.elim
    | cons s ss' =>
      obtain ⟨hmatch, hleft, hD'⟩ := hD
      rw [show plug (f :: fs) e
          = Elem.mk f.tag f.attrs (f.left ++ plug fs e :: f.right) from rfl]
      rw [show findNamedElement (Elem.mk f.tag f.attrs (f.left ++ plug fs e :: f.right))
            pre (s :: ss') opt app
          = match findInChildren (f.left ++ plug fs e :: f.right)
              (pre ++ "|" ++ s) ss' opt app with
            | some cs' => Elem.mk f.tag f.attrs cs'
            | Option.none => Elem.mk f.tag f.attrs
                ((f.left ++ plug fs e :: f.right)
                  ++ [findNamedElement (create_new_nodeTag (pre ++ "|" ++ s) opt)
                        (pre ++ "|" ++ s) ss' opt app]) by
        simp [findNamedElement]]
      rw [findInChildren_append _ _ _ _ f.left _ hleft,
        findInChildren_hit _ _ _ _ _ _ hmatch]
      simp only [Option.map_some']
      rw [ih ss' (pre ++ "|" ++ s) e hD']
      rfl

/-- The top of a plugged context depends only on the hole's top data. -/
theorem plug_top (fs : List Frame) (e e' : Elem)
    (ht : e.tag = e'.tag) (ha : e.attrs = e'.attrs) :
    (plug fs e).tag = (plug fs e').tag ∧ (plug fs e).attrs = (plug fs e').attrs := by
  cases fs with
  | nil => exact ⟨ht, ha⟩
  | cons f fs => exact ⟨rfl, rfl⟩

/-- Descent only inspects the hole's top data. -/
theorem descending_congr :
    ∀ (fs : List Frame) (ss : List String) (pre : String) (e e' : Elem),
      e.tag = e'.tag → e.attrs = e'.attrs →
      Descending e pre fs ss → Descending e' pre fs ss := by
  intro fs
  induction fs with
  | nil =>
    intro ss pre e e' _ _ hD
    cases ss with
    | nil => trivial
    | cons s ss' => exact hD.elim
  | cons f fs ih =>
    intro ss pre e e' ht ha hD
    cases ss with
    | nil => exact hD.elim
    | cons s ss' =>
      obtain ⟨hmatch, hleft, hD'⟩ := hD
      obtain ⟨ht', ha'⟩ := plug_top fs e e' ht ha
      refine ⟨⟨ht' ▸ hmatch.1, ?_⟩, hleft, ih ss' _ e e' ht ha hD'⟩
      show (plug fs e').attrGet "fullpath" = _
      unfold Elem.attrGet
      rw [← ha']
      exact hmatch.2

/-- Extending a descent by one frame and one segment. -/
theorem descending_snoc :
    ∀ (fs : List Frame) (ss : List String) (pre : String) (f : Frame) (e' : Elem)
      (s' : String),
      Descending (plug1 f e') pre fs ss →
      NodeMatch (pathStrAcc pre ss ++ "|" ++ s') e' →
      (∀ x ∈ f.left, ¬ NodeMatch (pathStrAcc pre ss ++ "|" ++ s') x) →
      Descending e' pre (fs ++ [f]) (ss ++ [s']) := by
  intro fs
  induction fs with
  | nil =>
    intro ss pre f e' s' hD hmatch hleft
    cases ss with
    | nil => exact ⟨hmatch, hleft, trivial⟩
    | cons s ss' => exact hD.elim
  | cons f₀ fs ih =>
    intro ss pre f e' s' hD hmatch hleft
    cases ss with
    | nil => exact hD.elim
    | cons s₀ ss' =>
      obtain ⟨hmatch₀, hleft₀, hD'⟩ := hD
      refine ⟨?_, hleft₀, ih ss' (pre ++ "|" ++ s₀) f e' s' hD' hmatch hleft⟩
      exact (plug_append fs f e').symm ▸ hmatch₀

/-- The fresh node tag `export_xml` appends for a child before its own
block completes it. -/
def freshElem (pre : String) (c : NTree) : Elem :=
  create_new_nodeTag (pre ++ "|" ++ lastSeg c.name) c.opt

theorem freshElem_eq (pre n : String) (o : Option Bag) (cs : List NTree) :
    freshElem pre (NTree.mk n o cs)
      = Elem.mk TAG_NODE
          [("name", lastSeg (pre ++ "|" ++ lastSeg n)), ("fullpath", pre ++ "|" ++ lastSeg n)]
          (optionElems o) := rfl

theorem childElems_spec (resolve : String → Option String) (fpP : String) :
    ∀ cs : List NTree, (∀ c ∈ cs, resolve c.name = some (fpP ++ "|" ++ lastSeg c.name)) →
      childElems resolve cs = some (cs.map (freshElem fpP)) := by
  intro cs
  induction cs with
  | nil => intro _; rfl
  | cons c cs' ih =>
    intro h
    rw [show childElems resolve (c :: cs')
        = match resolve c.name with
          | Option.none => Option.none
          | some cfp => (childElems resolve cs').map
              (fun l => create_new_nodeTag cfp c.opt :: l) from rfl]
    rw [h c (by simp), ih (fun c' hc' => h c' (by simp [hc']))]
    rfl

theorem exportFold_append (resolve : String → Option String) :
    ∀ (l₁ l₂ : List (NTree × List NTree)) (doc : Elem),
      exportFold resolve (l₁ ++ l₂) doc
        = (exportFold resolve l₁ doc).bind (fun d => exportFold resolve l₂ d) := by
  intro l₁
  induction l₁ with
  | nil => intro l₂ doc; simp [exportFold]
  | cons p l' ih =>
    intro l₂ doc
    rw [show (p :: l') ++ l₂ = p :: (l' ++ l₂) from rfl]
    show (match exportStep resolve doc p with
      | Option.none => Option.none
      | some doc' => exportFold resolve (l' ++ l₂) doc') = _
    cases h : exportStep resolve doc p with
    | none => simp [exportFold, h]
    | some d => simp [exportFold, h, ih]

theorem docNodeList_map (pre : String) :
    ∀ cs : List NTree, docNodeList pre cs = cs.map (docNode pre) := by
  intro cs
  induction cs with
  | nil => rfl
  | cons c cs' ih =>
    rw [show docNodeList pre (c :: cs') = docNode pre c :: docNodeList pre cs' from rfl, ih]
    rfl

/-- Sibling full paths with distinct suffixes differ. -/
theorem str_extend_ne (a : String) {s₁ s₂ : String} (h : s₁ ≠ s₂) :
    a ++ "|" ++ s₁ ≠ a ++ "|" ++ s₂ := by
  intro he
  apply h
  have hd : a.data ++ '|' :: s₁.data = a.data ++ '|' :: s₂.data := by
    have := congrArg String.data he
    simpa [String.data_append] using this
  have h2 := List.append_cancel_left hd
  have h3 : s₁.data = s₂.data := by simpa using h2
  calc s₁ = String.mk s₁.data := (String.mk_data s₁).symm
    _ = String.mk s₂.data := by rw [h3]
    _ = s₂ := String.mk_data s₂

theorem wellPathed_res {resolve : String → Option String} {P : List String}
    {n : String} {o : Option Bag} {cs : List NTree}
    (h : WellPathed resolve P (NTree.mk n o cs)) :
    resolve n = some (strOfSegs (P ++ [lastSeg n])) := by
  cases h
  assumption

theorem wellPathed_childs {resolve : String → Option String} {P : List String}
    {n : String} {o : Option Bag} {cs : List NTree}
    (h : WellPathed resolve P (NTree.mk n o cs)) :
    ∀ c ∈ cs, WellPathed resolve (P ++ [lastSeg n]) c := by
  cases h
  assumption

theorem uniqSibs_pairwise {n : String} {o : Option Bag} {cs : List NTree}
    (h : UniqSibs (NTree.mk n o cs)) :
    cs.Pairwise (fun a b => lastSeg a.name ≠ lastSeg b.name) := by
  cases h
  assumption

theorem uniqSibs_childs {n : String} {o : Option Bag} {cs : List NTree}
    (h : UniqSibs (NTree.mk n o cs)) : ∀ c ∈ cs, UniqSibs c := by
  cases h
  assumption

theorem lookup_fullpath (v₁ v₂ : String) :
    List.lookup "fullpath" [("name", v₁), ("fullpath", v₂)] = some v₂ := rfl

theorem attrGet_nodeAttrs (v₁ v₂ : String) (cs : List Elem) :
    Elem.attrGet (Elem.mk TAG_NODE [("name", v₁), ("fullpath", v₂)] cs) "fullpath"
      = some v₂ :=
  lookup_fullpath v₁ v₂

theorem docNode_fullpath (pre n : String) (o : Option Bag) (cs : List NTree) :
    Elem.attrGet (docNode pre (NTree.mk n o cs)) "fullpath"
      = some (pre ++ "|" ++ lastSeg n) := by
  simp only [docNode]
  exact attrGet_nodeAttrs _ _ _

theorem exportFold_cons_some (resolve : String → Option String)
    (p : NTree × List NTree) (rest : List (NTree × List NTree)) (doc doc' : Elem)
    (h : exportStep resolve doc p = some doc') :
    exportFold resolve (p :: rest) doc = exportFold resolve rest doc' := by
  show (match exportStep resolve doc p with
    | Option.none => Option.none
    | some d => exportFold resolve rest d) = _
  rw [h]

theorem exportFold_bind_some (resolve : String → Option String)
    (l : List (NTree × List NTree)) (d : Elem) :
    Option.bind (some d) (fun x => exportFold resolve l x) = exportFold resolve l d := rfl

/-- Main export invariant: running the traversal blocks of a forest of
siblings over a descending context completes each fresh sibling tag into its
full document subtree, in place. -/
theorem exportForest (resolve : String → Option String) :
    ∀ (N : ℕ) (csR : List NTree), sizeOf csR ≤ N →
    ∀ (P : List String) (fs : List Frame) (tg : String)
      (ats : List (String × String)) (front : List Elem),
      (∀ c ∈ csR, WellPathed resolve P c) →
      (∀ c ∈ csR, UniqSibs c) →
      (∀ s ∈ P, '|' ∉ s.data) →
      csR.Pairwise (fun a b => lastSeg a.name ≠ lastSeg b.name) →
      (∀ x ∈ front, ∀ c ∈ csR, ¬ NodeMatch (strOfSegs P ++ "|" ++ lastSeg c.name) x) →
      (∀ e' : Elem, e'.tag = tg → e'.attrs = ats → Descending e' "" fs P) →
      exportFold resolve (traverseList csR true)
        (plug fs (Elem.mk tg ats (front ++ csR.map (freshElem (strOfSegs P)))))
        = some (plug fs (Elem.mk tg ats (front ++ csR.map (docNode (strOfSegs P))))) := by
  intro N
  induction N with
  | zero =>
    intro csR hsz
    cases csR with
    | nil => intro P fs tg ats front _ _ _ _ _ _; simp [traverseList, exportFold]
    | cons c csR' =>
      exfalso
      simp only [List.cons.sizeOf_spec] at hsz
      omega
  | succ N ih =>
    intro csR hsz
    cases csR with
    | nil => intro P fs tg ats front _ _ _ _ _ _; simp [traverseList, exportFold]
    | cons c csR' =>
      intro P fs tg ats front hWP hU hP hPW hfront hDesc
      obtain ⟨nC, oC, csC⟩ := c
      have hres : resolve nC = some (strOfSegs (P ++ [lastSeg nC])) :=
        wellPathed_res (hWP _ (List.mem_cons_self _ _))
      have hWPc : ∀ c' ∈ csC, WellPathed resolve (P ++ [lastSeg nC]) c' :=
        wellPathed_childs (hWP _ (List.mem_cons_self _ _))
      have hUc : ∀ c' ∈ csC, UniqSibs c' :=
        uniqSibs_childs (hU _ (List.mem_cons_self _ _))
      have hPWc : csC.Pairwise (fun a b => lastSeg a.name ≠ lastSeg b.name) :=
        uniqSibs_pairwise (hU _ (List.mem_cons_self _ _))
      have hszC : sizeOf csC ≤ N := by
        simp only [List.cons.sizeOf_spec, NTree.mk.sizeOf_spec] at hsz
        omega
      have hszR : sizeOf csR' ≤ N := by
        simp only [List.cons.sizeOf_spec, NTree.mk.sizeOf_spec] at hsz
        omega
      have hPc : ∀ s ∈ P ++ [lastSeg nC], ('|' : Char) ∉ s.data := by
        intro s hs
        rcases List.mem_append.mp hs with h | h
        · exact hP s h
        · rw [List.mem_singleton.mp h]
          exact lastSeg_pipeFree nC
      have hchild : childElems resolve csC
          = some (csC.map (freshElem (strOfSegs (P ++ [lastSeg nC])))) := by
        apply childElems_spec
        intro c' hc'
        obtain ⟨n', o', cs'⟩ := c'
        have h := wellPathed_res (hWPc _ hc')
        simp only [NTree.name_mk]
        rw [h, strOfSegs_append]
      have hstep : exportStep resolve
          (plug fs (Elem.mk tg ats
            (front ++ (NTree.mk nC oC csC :: csR').map (freshElem (strOfSegs P)))))
          (NTree.mk nC oC csC, csC)
          = some (plug (fs ++ [⟨tg, ats, front, csR'.map (freshElem (strOfSegs P))⟩])
              (Elem.mk TAG_NODE
                [("name", lastSeg (strOfSegs P ++ "|" ++ lastSeg nC)),
                 ("fullpath", strOfSegs P ++ "|" ++ lastSeg nC)]
                (optionElems oC
                  ++ csC.map (freshElem (strOfSegs (P ++ [lastSeg nC])))))) := by
        have hD : Descending (freshElem (strOfSegs P) (NTree.mk nC oC csC)) ""
            (fs ++ [⟨tg, ats, front, csR'.map (freshElem (strOfSegs P))⟩])
            (P ++ [lastSeg nC]) := by
          apply descending_snoc
          · exact hDesc _ rfl rfl
          · refine ⟨rfl, ?_⟩
            show Elem.attrGet (Elem.mk TAG_NODE
                [("name", lastSeg (strOfSegs P ++ "|" ++ lastSeg nC)),
                 ("fullpath", strOfSegs P ++ "|" ++ lastSeg nC)]
                (optionElems oC)) "fullpath" = some (strOfSegs P ++ "|" ++ lastSeg nC)
            exact attrGet_nodeAttrs _ _ _
          · intro x hx
            exact hfront x hx _ (List.mem_cons_self _ _)
        rw [show exportStep resolve
            (plug fs (Elem.mk tg ats
              (front ++ (NTree.mk nC oC csC :: csR').map (freshElem (strOfSegs P)))))
            (NTree.mk nC oC csC, csC)
          = (match resolve nC with
             | Option.none => Option.none
             | some fp =>
               match childElems resolve csC with
               | Option.none => Option.none
               | some apps => some (findNamedElement
                   (plug fs (Elem.mk tg ats
                     (front ++ (NTree.mk nC oC csC :: csR').map (freshElem (strOfSegs P)))))
                   "" ((pySplit fp '|').drop 1) oC apps)) from rfl]
        rw [hres, hchild]
        show some (findNamedElement
            (plug fs (Elem.mk tg ats
              (front ++ (NTree.mk nC oC csC :: csR').map (freshElem (strOfSegs P)))))
            "" ((pySplit (strOfSegs (P ++ [lastSeg nC])) '|').drop 1) oC
            (csC.map (freshElem (strOfSegs (P ++ [lastSeg nC]))))) = _
        rw [segsOf_strOfSegs _ hPc]
        rw [show plug fs (Elem.mk tg ats
              (front ++ (NTree.mk nC oC csC :: csR').map (freshElem (strOfSegs P))))
            = plug (fs ++ [⟨tg, ats, front, csR'.map (freshElem (strOfSegs P))⟩])
                (freshElem (strOfSegs P) (NTree.mk nC oC csC)) by
          rw [plug_append]
          rfl]
        rw [plugFind _ _ _ _ _ _ hD]
        rfl
      have hDescC : ∀ e' : Elem, e'.tag = TAG_NODE →
          e'.attrs = [("name", lastSeg (strOfSegs P ++ "|" ++ lastSeg nC)),
                      ("fullpath", strOfSegs P ++ "|" ++ lastSeg nC)] →
          Descending e' ""
            (fs ++ [⟨tg, ats, front, csR'.map (freshElem (strOfSegs P))⟩])
            (P ++ [lastSeg nC]) := by
        intro e' ht ha
        apply descending_snoc
        · exact hDesc _ rfl rfl
        · refine ⟨ht, ?_⟩
          show Elem.attrGet e' "fullpath" = some (strOfSegs P ++ "|" ++ lastSeg nC)
          unfold Elem.attrGet
          rw [ha]
          rfl
        · intro x hx
          exact hfront x hx _ (List.mem_cons_self _ _)
      have hIH1 := ih csC hszC (P ++ [lastSeg nC])
        (fs ++ [⟨tg, ats, front, csR'.map (freshElem (strOfSegs P))⟩])
        TAG_NODE
        [("name", lastSeg (strOfSegs P ++ "|" ++ lastSeg nC)),
         ("fullpath", strOfSegs P ++ "|" ++ lastSeg nC)]
        (optionElems oC)
        hWPc hUc hPc hPWc
        (by
          intro x hx c' hc' hNM
          have hto := optionElems_tags oC x hx
          have htn := hNM.1
          rw [hto] at htn
          exact absurd htn (by decide))
        hDescC
      have hIH2 := ih csR' hszR P fs tg ats
        (front ++ [docNode (strOfSegs P) (NTree.mk nC oC csC)])
        (fun c' hc' => hWP c' (List.mem_cons_of_mem _ hc'))
        (fun c' hc' => hU c' (List.mem_cons_of_mem _ hc'))
        hP
        ((List.pairwise_cons.mp hPW).2)
        (by
          intro x hx c' hc' hNM
          rcases List.mem_append.mp hx with hxf | hxd
          · exact hfront x hxf c' (List.mem_cons_of_mem _ hc') hNM
          · rw [List.mem_singleton.mp hxd] at hNM
            have hfp := hNM.2
            rw [docNode_fullpath] at hfp
            have heq := Option.some.inj hfp
            exact (str_extend_ne (strOfSegs P)
              ((List.pairwise_cons.mp hPW).1 c' hc')) heq)
        hDesc
      have hED : Elem.mk TAG_NODE
            [("name", lastSeg (strOfSegs P ++ "|" ++ lastSeg nC)),
             ("fullpath", strOfSegs P ++ "|" ++ lastSeg nC)]
            (optionElems oC ++ csC.map (docNode (strOfSegs (P ++ [lastSeg nC]))))
          = docNode (strOfSegs P) (NTree.mk nC oC csC) := by
        rw [strOfSegs_append]
        simp only [docNode, docNodeList_map]
      have hdoc₂ : plug (fs ++ [⟨tg, ats, front, csR'.map (freshElem (strOfSegs P))⟩])
            (Elem.mk TAG_NODE
              [("name", lastSeg (strOfSegs P ++ "|" ++ lastSeg nC)),
               ("fullpath", strOfSegs P ++ "|" ++ lastSeg nC)]
              (optionElems oC ++ csC.map (docNode (strOfSegs (P ++ [lastSeg nC])))))
          = plug fs (Elem.mk tg ats
              ((front ++ [docNode (strOfSegs P) (NTree.mk nC oC csC)])
                ++ csR'.map (freshElem (strOfSegs P)))) := by
        rw [plug_append, hED]
        show plug fs (Elem.mk tg ats
            (front ++ docNode (strOfSegs P) (NTree.mk nC oC csC)
              :: csR'.map (freshElem (strOfSegs P)))) = _
        rw [List.append_assoc, List.singleton_append]
      have htl : traverseList (NTree.mk nC oC csC :: csR') true
          = (NTree.mk nC oC csC, csC) :: (traverseList csC true ++ traverseList csR' true) := by
        rw [show traverseList (NTree.mk nC oC csC :: csR') true
            = traverse (NTree.mk nC oC csC) true ++ traverseList csR' true by
          simp [traverseList]]
        rw [traverse_true_eq, List.cons_append]
      rw [htl]
      rw [exportFold_cons_some _ _ _ _ _ hstep]
      rw [exportFold_append]
      rw [hIH1, exportFold_bind_some]
      rw [hdoc₂]
      rw [hIH2]
      simp only [List.map_cons, List.append_assoc, List.singleton_append]

/-- The root-creation step of `export_xml`: finding a single fresh segment
in a childless element appends the freshly created node tag. -/
theorem findNamedElement_empty_single (tg : String) (ats : List (String × String))
    (s : String) (o : Option Bag) (app : List Elem) :
    findNamedElement (Elem.mk tg ats []) "" [s] o app
      = Elem.mk tg ats [Elem.mk TAG_NODE
          [("name", lastSeg ("" ++ "|" ++ s)), ("fullpath", "" ++ "|" ++ s)]
          (optionElems o ++ app)] := by
  simp only [findNamedElement, findInChildren, List.nil_append,
    create_new_nodeTag, createNewElement]

/-- `export_xml` produces exactly the completed document `exportDoc` when
every node's name resolves to its tree-position full path. -/
theorem export_spec (resolve : String → Option String) :
    ∀ (t : NTree), WellPathed resolve [] t → UniqSibs t →
      export_xml t resolve = some (exportDoc t) := by
  intro t hWP hU
  obtain ⟨n, o, cs⟩ := t
  have hres0 : resolve n = some (strOfSegs [lastSeg n]) := by
    have h := wellPathed_res hWP
    simpa using h
  have hch0 : ∀ c ∈ cs, WellPathed resolve [lastSeg n] c := by
    have h := wellPathed_childs hWP
    simpa using h
  have hchild0 : childElems resolve cs
      = some (cs.map (freshElem (strOfSegs [lastSeg n]))) := by
    apply childElems_spec
    intro c' hc'
    obtain ⟨n', o', cs'⟩ := c'
    have h := wellPathed_res (hch0 _ hc')
    simp only [NTree.name_mk]
    rw [h, strOfSegs_append]
  have hP0 : ∀ s ∈ [lastSeg n], ('|' : Char) ∉ s.data := by
    intro s hs
    rw [List.mem_singleton.mp hs]
    exact lastSeg_pipeFree n
  have hstep0 : exportStep resolve (Elem.mk TAG_ROOT [] []) (NTree.mk n o cs, cs)
      = some (plug [⟨TAG_ROOT, [], [], []⟩]
          (Elem.mk TAG_NODE
            [("name", lastSeg ("" ++ "|" ++ lastSeg n)), ("fullpath", "" ++ "|" ++ lastSeg n)]
            (optionElems o ++ cs.map (freshElem (strOfSegs [lastSeg n]))))) := by
    rw [show exportStep resolve (Elem.mk TAG_ROOT [] []) (NTree.mk n o cs, cs)
        = (match resolve n with
           | Option.none => Option.none
           | some fp =>
             match childElems resolve cs with
             | Option.none => Option.none
             | some apps => some (findNamedElement (Elem.mk TAG_ROOT [] [])
                 "" ((pySplit fp '|').drop 1) o apps)) from rfl]
    rw [hres0, hchild0]
    show some (findNamedElement (Elem.mk TAG_ROOT [] [])
        "" ((pySplit (strOfSegs [lastSeg n]) '|').drop 1) o
        (cs.map (freshElem (strOfSegs [lastSeg n])))) = _
    rw [segsOf_strOfSegs _ hP0]
    rw [findNamedElement_empty_single]
    rfl
  have hfront0 : ∀ x ∈ optionElems o, ∀ c ∈ cs,
      ¬ NodeMatch (strOfSegs [lastSeg n] ++ "|" ++ lastSeg c.name) x := by
    intro x hx c' hc' hNM
    have hto := optionElems_tags o x hx
    have htn := hNM.1
    rw [hto] at htn
    exact absurd htn (by decide)
  have hDesc0 : ∀ e' : Elem, e'.tag = TAG_NODE →
      e'.attrs = [("name", lastSeg ("" ++ "|" ++ lastSeg n)),
                  ("fullpath", "" ++ "|" ++ lastSeg n)] →
      Descending e' "" [⟨TAG_ROOT, [], [], []⟩] [lastSeg n] := by
    intro e' ht ha
    refine ⟨⟨ht, ?_⟩, ?_, trivial⟩
    · show Elem.attrGet e' "fullpath" = some ("" ++ "|" ++ lastSeg n)
      unfold Elem.attrGet
      rw [ha]
      rfl
    · intro x hx
      simp at hx
  have hEF := exportForest resolve (sizeOf cs) cs (le_refl _) [lastSeg n]
      [⟨TAG_ROOT, [], [], []⟩] TAG_NODE
      [("name", lastSeg ("" ++ "|" ++ lastSeg n)), ("fullpath", "" ++ "|" ++ lastSeg n)]
      (optionElems o) hch0 (uniqSibs_childs hU) hP0 (uniqSibs_pairwise hU)
      hfront0 hDesc0
  rw [show export_xml (NTree.mk n o cs) resolve
      = exportFold resolve (traverse (NTree.mk n o cs) true) (Elem.mk TAG_ROOT [] []) from rfl]
  rw [traverse_true_eq]
  rw [exportFold_cons_some _ _ _ _ _ hstep0]
  rw [hEF]
  rw [show exportDoc (NTree.mk n o cs)
      = Elem.mk TAG_ROOT [] [docNode "" (NTree.mk n o cs)] from rfl]
  simp only [docNode, docNodeList_map]
  rfl

/-! ### Import correctness: name counting and insertion -/

mutual

/-- Number of nodes of a tree carrying a given name. -/
def countNamed : NTree → String → ℕ
  | .mk n _ cs, p => (if n = p then 1 else 0) + countNamedList cs p

/-- Name count over a forest. -/
def countNamedList : List NTree → String → ℕ
  | [], _ => 0
  | c :: cs, p => countNamed c p + countNamedList cs p

end

mutual

/-- The pure tree effect of `find_add`: append the new child at every
topmost node named `p` (the `self.name == par` branch appends and stops; the
other branch recurses into every child). -/
def addChildAt : NTree → String → NTree → NTree
  | .mk n o cs, p, x =>
    if n = p then NTree.mk n o (cs ++ [x])
    else NTree.mk n o (addChildAtList cs p x)

/-- `addChildAt` over a forest. -/
def addChildAtList : List NTree → String → NTree → List NTree
  | [], _, _ => []
  | c :: cs, p, x => addChildAt c p x :: addChildAtList cs p x

end

mutual

/-- The document full paths of an exported subtree, in document order. -/
def subtreePaths (pre : String) : NTree → List String
  | .mk n _ cs =>
    (pre ++ "|" ++ lastSeg n) :: subtreePathsList (pre ++ "|" ++ lastSeg n) cs

/-- Full paths of an exported forest. -/
def subtreePathsList (pre : String) : List NTree → List String
  | [] => []
  | c :: cs => subtreePaths pre c ++ subtreePathsList pre cs

end

mutual

/-- Segment-level document paths of a subtree. -/
def segPaths (P : List String) : NTree → List (List String)
  | .mk n _ cs => (P ++ [lastSeg n]) :: segPathsList (P ++ [lastSeg n]) cs

/-- Segment-level document paths of a forest. -/
def segPathsList (P : List String) : List NTree → List (List String)
  | [] => []
  | c :: cs => segPaths P c ++ segPathsList P cs

end

theorem countNamed_mk (n : String) (o : Option Bag) (cs : List NTree) (p : String) :
    countNamed (NTree.mk n o cs) p = (if n = p then 1 else 0) + countNamedList cs p := by
  simp only [countNamed]

theorem countNamedList_nil (p : String) : countNamedList [] p = 0 := by
  simp only [countNamedList]

theorem countNamedList_cons (c : NTree) (cs : List NTree) (p : String) :
    countNamedList (c :: cs) p = countNamed c p + countNamedList cs p := by
  simp only [countNamedList]

theorem addChildAt_pos {n p : String} (h : n = p) (o : Option Bag) (cs : List NTree)
    (x : NTree) : addChildAt (NTree.mk n o cs) p x = NTree.mk n o (cs ++ [x]) := by
  simp only [addChildAt]
  exact if_pos h

theorem addChildAt_neg {n p : String} (h : ¬ n = p) (o : Option Bag) (cs : List NTree)
    (x : NTree) : addChildAt (NTree.mk n o cs) p x = NTree.mk n o (addChildAtList cs p x) := by
  simp only [addChildAt]
  exact if_neg h

theorem addChildAtList_nil (p : String) (x : NTree) : addChildAtList [] p x = [] := by
  simp only [addChildAtList]

theorem addChildAtList_cons (c : NTree) (cs : List NTree) (p : String) (x : NTree) :
    addChildAtList (c :: cs) p x = addChildAt c p x :: addChildAtList cs p x := by
  simp only [addChildAtList]

theorem subtreePaths_mk (pre n : String) (o : Option Bag) (cs : List NTree) :
    subtreePaths pre (NTree.mk n o cs)
      = (pre ++ "|" ++ lastSeg n) :: subtreePathsList (pre ++ "|" ++ lastSeg n) cs := by
  simp only [subtreePaths]

theorem subtreePathsList_nil (pre : String) : subtreePathsList pre [] = [] := by
  simp only [subtreePathsList]

theorem subtreePathsList_cons (pre : String) (c : NTree) (cs : List NTree) :
    subtreePathsList pre (c :: cs) = subtreePaths pre c ++ subtreePathsList pre cs := by
  simp only [subtreePathsList]

theorem segPaths_mk (P : List String) (n : String) (o : Option Bag) (cs : List NTree) :
    segPaths P (NTree.mk n o cs)
      = (P ++ [lastSeg n]) :: segPathsList (P ++ [lastSeg n]) cs := by
  simp only [segPaths]

theorem segPathsList_nil (P : List String) : segPathsList P [] = [] := by
  simp only [segPathsList]

theorem segPathsList_cons (P : List String) (c : NTree) (cs : List NTree) :
    segPathsList P (c :: cs) = segPaths P c ++ segPathsList P cs := by
  simp only [segPathsList]

theorem impNode_mk (pre n : String) (o : Option Bag) (cs : List NTree) :
    impNode pre (NTree.mk n o cs)
      = NTree.mk (pre ++ "|" ++ lastSeg n) (some (bagOf o))
          (impNodeList (pre ++ "|" ++ lastSeg n) cs) := by
  simp only [impNode]

theorem impNodeList_map (pre : String) :
    ∀ cs : List NTree, impNodeList pre cs = cs.map (impNode pre) := by
  intro cs
  induction cs with
  | nil => simp only [impNodeList, List.map_nil]
  | cons c cs' ih =>
    simp only [impNodeList, List.map_cons]
    rw [ih]

theorem find_add_eq_addChildAt (par nm : String) (opt : Option Bag) :
    ∀ t : NTree, (find_add t par nm opt).1 = addChildAt t par (NTree.mk nm opt []) := by
  intro t
  induction t using NTree.strongInduction with
  | h n o cs ih =>
    by_cases h : n = par
    · rw [show (find_add (NTree.mk n o cs) par nm opt).1
          = NTree.mk n o (cs ++ [NTree.mk nm opt []]) by simp [find_add, h]]
      rw [addChildAt_pos h]
    · rw [show (find_add (NTree.mk n o cs) par nm opt).1
          = NTree.mk n o (findAddList cs par nm opt) by simp [find_add, h]]
      rw [addChildAt_neg h]
      congr 1
      revert ih
      induction cs with
      | nil => intro _; rfl
      | cons c cs' ihl =>
        intro ih
        rw [show findAddList (c :: cs') par nm opt
            = (find_add c par nm opt).1 :: findAddList cs' par nm opt from rfl]
        rw [addChildAtList_cons]
        rw [ih c (List.mem_cons_self _ _)]
        rw [ihl (fun c' hc' => ih c' (List.mem_cons_of_mem _ hc'))]

theorem countNamedList_append (q : String) :
    ∀ l₁ l₂ : List NTree,
      countNamedList (l₁ ++ l₂) q = countNamedList l₁ q + countNamedList l₂ q := by
  intro l₁ l₂
  induction l₁ with
  | nil => simp [countNamedList]
  | cons c l' ih =>
    rw [List.cons_append, countNamedList_cons, countNamedList_cons, ih]
    omega

theorem addChildAt_noop (q : String) (y : NTree) :
    ∀ t : NTree, countNamed t q = 0 → addChildAt t q y = t := by
  intro t
  induction t using NTree.strongInduction with
  | h n o cs ih =>
    intro hc
    rw [countNamed_mk] at hc
    have hnq : ¬ n = q := by
      intro h
      rw [if_pos h] at hc
      omega
    have hcs : countNamedList cs q = 0 := by
      rw [if_neg hnq] at hc
      omega
    clear hc
    rw [addChildAt_neg hnq]
    congr 1
    revert ih hcs
    induction cs with
    | nil => intro _ _; rw [addChildAtList_nil]
    | cons c cs' ihl =>
      intro ih hcs
      rw [countNamedList_cons] at hcs
      rw [addChildAtList_cons]
      rw [ih c (List.mem_cons_self _ _) (by omega)]
      rw [ihl (fun c' hc' => ih c' (List.mem_cons_of_mem _ hc')) (by omega)]

theorem addChildAtList_noop (q : String) (y : NTree) :
    ∀ cs : List NTree, countNamedList cs q = 0 → addChildAtList cs q y = cs := by
  intro cs
  induction cs with
  | nil => intro _; rw [addChildAtList_nil]
  | cons c cs' ih =>
    intro h
    rw [countNamedList_cons] at h
    rw [addChildAtList_cons]
    rw [addChildAt_noop q y c (by omega), ih (by omega)]

theorem addChildAt_compose (p : String) (x : NTree) (q : String) (y : NTree) :
    ∀ TR : NTree, countNamed TR q = 0 →
      addChildAt (addChildAt TR p x) q y = addChildAt TR p (addChildAt x q y) := by
  intro TR
  induction TR using NTree.strongInduction with
  | h n o cs ih =>
    intro hc
    rw [countNamed_mk] at hc
    have hnq : ¬ n = q := by
      intro h
      rw [if_pos h] at hc
      omega
    have hcs : countNamedList cs q = 0 := by
      rw [if_neg hnq] at hc
      omega
    clear hc
    by_cases hp : n = p
    · rw [addChildAt_pos hp, addChildAt_neg hnq, addChildAt_pos hp]
      congr 1
      rw [show addChildAtList (cs ++ [x]) q y
          = addChildAtList cs q y ++ addChildAtList [x] q y by
        clear ih hcs
        induction cs with
        | nil => rfl
        | cons c cs' ihl =>
          rw [List.cons_append, addChildAtList_cons, addChildAtList_cons, ihl,
            List.cons_append]]
      rw [addChildAtList_noop q y cs hcs]
      rw [addChildAtList_cons, addChildAtList_nil]
    · rw [addChildAt_neg hp, addChildAt_neg hnq, addChildAt_neg hp]
      congr 1
      revert ih hcs
      induction cs with
      | nil => intro _ _; rw [addChildAtList_nil, addChildAtList_nil, addChildAtList_nil]
      | cons c cs' ihl =>
        intro ih hcs
        rw [countNamedList_cons] at hcs
        rw [addChildAtList_cons, addChildAtList_cons, addChildAtList_cons]
        rw [ih c (List.mem_cons_self _ _) (by omega)]
        rw [ihl (fun c' hc' => ih c' (List.mem_cons_of_mem _ hc')) (by omega)]

theorem countNamed_addChildAt (p : String) (x : NTree) (r : String) :
    ∀ TR : NTree, countNamed TR p = 1 →
      countNamed (addChildAt TR p x) r = countNamed TR r + countNamed x r := by
  intro TR
  induction TR using NTree.strongInduction with
  | h n o cs ih =>
    intro hc
    rw [countNamed_mk] at hc
    by_cases hp : n = p
    · rw [if_pos hp] at hc
      rw [addChildAt_pos hp]
      rw [countNamed_mk, countNamed_mk, countNamedList_append,
        countNamedList_cons, countNamedList_nil]
      omega
    · rw [if_neg hp] at hc
      rw [addChildAt_neg hp]
      rw [countNamed_mk, countNamed_mk]
      have hlist : countNamedList (addChildAtList cs p x) r
          = countNamedList cs r + countNamed x r := by
        revert ih hc
        induction cs with
        | nil =>
          intro _ hc
          rw [countNamedList_nil] at hc
          omega
        | cons c cs' ihl =>
          intro ih hc
          rw [countNamedList_cons] at hc
          rw [addChildAtList_cons, countNamedList_cons, countNamedList_cons]
          by_cases h1 : countNamed c p = 1
          · have h2 : countNamedList cs' p = 0 := by omega
            rw [ih c (List.mem_cons_self _ _) h1]
            rw [addChildAtList_noop p x cs' h2]
            omega
          · have h1' : countNamed c p = 0 := by omega
            rw [addChildAt_noop p x c h1']
            rw [ihl (fun c' hc' => ih c' (List.mem_cons_of_mem _ hc')) (by omega)]
            omega
      omega

theorem countNamed_impNode (q : String) :
    ∀ c : NTree, ∀ pre : String,
      q ∉ subtreePaths pre c → countNamed (impNode pre c) q = 0 := by
  intro c
  induction c using NTree.strongInduction with
  | h n o cs ih =>
    intro pre hq
    rw [subtreePaths_mk, List.mem_cons] at hq
    push_neg at hq
    obtain ⟨hq1, hq2⟩ := hq
    rw [impNode_mk, countNamed_mk]
    rw [if_neg (fun h => hq1 h.symm)]
    have hlist : countNamedList (impNodeList (pre ++ "|" ++ lastSeg n) cs) q = 0 := by
      revert ih hq2
      induction cs with
      | nil => intro _ _; rw [show impNodeList (pre ++ "|" ++ lastSeg n) [] = [] by
          simp only [impNodeList]]; rw [countNamedList_nil]
      | cons c' cs' ihl =>
        intro ih hq2
        rw [subtreePathsList_cons, List.mem_append] at hq2
        push_neg at hq2
        rw [show impNodeList (pre ++ "|" ++ lastSeg n) (c' :: cs')
            = impNode (pre ++ "|" ++ lastSeg n) c'
              :: impNodeList (pre ++ "|" ++ lastSeg n) cs' by simp only [impNodeList]]
        rw [countNamedList_cons]
        rw [ih c' (List.mem_cons_self _ _) _ hq2.1]
        rw [ihl (fun c'' hc'' => ih c'' (List.mem_cons_of_mem _ hc'')) hq2.2]
    omega

theorem subtreePaths_length :
    ∀ c : NTree, ∀ (pre : String), ∀ q ∈ subtreePaths pre c, pre.length < q.length := by
  intro c
  induction c using NTree.strongInduction with
  | h n o cs ih =>
    intro pre q hq
    rw [subtreePaths_mk, List.mem_cons] at hq
    rcases hq with h | h
    · rw [h]
      exact length_path_extend _ _
    · have hlt : (pre ++ "|" ++ lastSeg n).length < q.length := by
        revert ih h
        induction cs with
        | nil =>
          intro _ h
          rw [subtreePathsList_nil] at h
          exact absurd h (List.not_mem_nil q)
        | cons c' cs' ihl =>
          intro ih h
          rw [subtreePathsList_cons, List.mem_append] at h
          rcases h with h | h
          · exact ih c' (List.mem_cons_self _ _) _ q h
          · exact ihl (fun c'' hc'' => ih c'' (List.mem_cons_of_mem _ hc'')) h
      have := length_path_extend pre (lastSeg n)
      omega

theorem subtreePathsList_length (pre : String) (cs : List NTree) :
    ∀ q ∈ subtreePathsList pre cs, pre.length < q.length := by
  induction cs with
  | nil =>
    intro q hq
    rw [subtreePathsList_nil] at hq
    exact absurd hq (List.not_mem_nil q)
  | cons c cs' ih =>
    intro q hq
    rw [subtreePathsList_cons, List.mem_append] at hq
    rcases hq with h | h
    · exact subtreePaths_length c pre q h
    · exact ih q h

theorem foldl_addChildAt_compose (par fp : String) (TR : NTree)
    (h : countNamed TR fp = 0) :
    ∀ (cs : List NTree) (X : NTree),
      cs.foldl (fun S c' => addChildAt S fp (impNode fp c')) (addChildAt TR par X)
        = addChildAt TR par (cs.foldl (fun Y c' => addChildAt Y fp (impNode fp c')) X) := by
  intro cs
  induction cs with
  | nil => intro X; simp
  | cons c cs' ih =>
    intro X
    simp only [List.foldl_cons]
    rw [addChildAt_compose par X fp (impNode fp c) TR h]
    exact ih _

theorem foldl_addChildAt_root (par pre : String) (b : Option Bag) :
    ∀ (cs : List NTree) (acc : List NTree),
      cs.foldl (fun Y c' => addChildAt Y par (impNode pre c')) (NTree.mk par b acc)
        = NTree.mk par b (acc ++ cs.map (impNode pre)) := by
  intro cs
  induction cs with
  | nil => intro acc; simp
  | cons c cs' ih =>
    intro acc
    simp only [List.foldl_cons]
    rw [addChildAt_pos rfl]
    rw [ih (acc ++ [impNode pre c])]
    simp

theorem docNode_tag (pre : String) : ∀ c : NTree, (docNode pre c).tag = TAG_NODE := by
  intro c
  obtain ⟨n, o, cs⟩ := c
  simp only [docNode]
  rfl

theorem importList_skip_options (TR : NTree) (par : String) (o : Option Bag) :
    ∀ es : List Elem, importList TR par (optionElems o ++ es) = importList TR par es := by
  cases o with
  | none => intro es; rfl
  | some bag =>
    induction bag with
    | nil => intro es; rfl
    | cons kv rest ih =>
      intro es
      rw [show optionElems (some (kv :: rest)) ++ es
          = Elem.mk TAG_OPT [("name", kv.1), ("value", pyStr kv.2), ("type", typeName kv.2)] []
            :: (optionElems (some rest) ++ es) from rfl]
      rw [show importList TR par
            (Elem.mk TAG_OPT [("name", kv.1), ("value", pyStr kv.2), ("type", typeName kv.2)] []
              :: (optionElems (some rest) ++ es))
          = importList TR par (optionElems (some rest) ++ es) by
        simp [importList, TAG_OPT, TAG_NODE]]
      exact ih es

/-- Import correctness: inserting an exported subtree into a tree holding
exactly one node named `par` and none of the incoming full paths appends the
rebuilt subtree at that parent; a forest of exported siblings folds such
insertions left to right. -/
theorem importAux : ∀ N : ℕ,
    (∀ c : NTree, sizeOf c ≤ N → ∀ (pre : String) (TR : NTree) (par : String),
      countNamed TR par = 1 →
      (∀ q ∈ subtreePaths pre c, countNamed TR q = 0) →
      (subtreePaths pre c).Nodup →
      par ∉ subtreePaths pre c →
      (∀ x ∈ allNodes c, GoodBag x.opt) →
      importNode TR par (docNode pre c) = some (addChildAt TR par (impNode pre c)))
    ∧ (∀ cs : List NTree, sizeOf cs ≤ N → ∀ (pre : String) (TR : NTree) (par : String),
      countNamed TR par = 1 →
      (∀ q ∈ subtreePathsList pre cs, countNamed TR q = 0) →
      (subtreePathsList pre cs).Nodup →
      par ∉ subtreePathsList pre cs →
      (∀ c ∈ cs, ∀ x ∈ allNodes c, GoodBag x.opt) →
      importList TR par (docNodeList pre cs)
        = some (cs.foldl (fun S c' => addChildAt S par (impNode pre c')) TR)) := by
  intro N
  induction N with
  | zero =>
    constructor
    · intro c hsz
      exfalso
      obtain ⟨n, o, cs⟩ := c
      simp only [NTree.mk.sizeOf_spec] at hsz
      omega
    · intro cs hsz pre TR par _ _ _ _ _
      cases cs with
      | nil =>
        rw [show docNodeList pre [] = [] by simp only [docNodeList]]
        rw [show importList TR par [] = some TR by simp [importList]]
        rw [List.foldl_nil]
      | cons c cs' =>
        exfalso
        simp only [List.cons.sizeOf_spec] at hsz
        omega
  | succ N ih =>
    obtain ⟨ihN, ihL⟩ := ih
    constructor
    · intro c hsz pre TR par hcnt hfresh hnodup hparnot hbags
      obtain ⟨n, o, cs⟩ := c
      have hszcs : sizeOf cs ≤ N := by
        simp only [NTree.mk.sizeOf_spec] at hsz
        omega
      rw [subtreePaths_mk] at hfresh hnodup
      have hfreshHead : countNamed TR (pre ++ "|" ++ lastSeg n) = 0 :=
        hfresh _ (List.mem_cons_self _ _)
      have hfreshTail : ∀ q ∈ subtreePathsList (pre ++ "|" ++ lastSeg n) cs,
          countNamed TR q = 0 :=
        fun q hq => hfresh q (List.mem_cons_of_mem _ hq)
      have hnodup' := List.nodup_cons.mp hnodup
      have hGBo : GoodBag o := hbags (NTree.mk n o cs) (self_mem_allNodes _)
      have hbags' : ∀ c' ∈ cs, ∀ x ∈ allNodes c', GoodBag x.opt :=
        fun c' hc' x hx => hbags x (mem_allNodes_of_child hc' hx)
      have hro := restoreOptionElem_docNode pre n o cs hGBo
      simp only [docNode] at hro ⊢
      simp only [importNode]
      rw [attrGet_nodeAttrs]
      rw [hro]
      show importList ((find_add TR par (pre ++ "|" ++ lastSeg n) (some (bagOf o))).1)
          (pre ++ "|" ++ lastSeg n)
          (optionElems o ++ docNodeList (pre ++ "|" ++ lastSeg n) cs)
        = some (addChildAt TR par (impNode pre (NTree.mk n o cs)))
      rw [find_add_eq_addChildAt]
      rw [importList_skip_options]
      have hcnt' : countNamed (addChildAt TR par
            (NTree.mk (pre ++ "|" ++ lastSeg n) (some (bagOf o)) []))
          (pre ++ "|" ++ lastSeg n) = 1 := by
        rw [countNamed_addChildAt par _ _ TR hcnt]
        rw [hfreshHead, countNamed_mk, if_pos rfl, countNamedList_nil]
      have hfresh' : ∀ q ∈ subtreePathsList (pre ++ "|" ++ lastSeg n) cs,
          countNamed (addChildAt TR par
              (NTree.mk (pre ++ "|" ++ lastSeg n) (some (bagOf o)) [])) q = 0 := by
        intro q hq
        rw [countNamed_addChildAt par _ _ TR hcnt]
        rw [hfreshTail q hq, countNamed_mk, countNamedList_nil]
        rw [if_neg (fun h => hnodup'.1 (by rw [← h] at hq; exact hq))]
      have hfpnot : (pre ++ "|" ++ lastSeg n)
          ∉ subtreePathsList (pre ++ "|" ++ lastSeg n) cs := by
        intro hmem
        have := subtreePathsList_length _ _ _ hmem
        omega
      rw [ihL cs hszcs (pre ++ "|" ++ lastSeg n)
        (addChildAt TR par (NTree.mk (pre ++ "|" ++ lastSeg n) (some (bagOf o)) []))
        (pre ++ "|" ++ lastSeg n) hcnt' hfresh' hnodup'.2 hfpnot hbags']
      rw [foldl_addChildAt_compose par (pre ++ "|" ++ lastSeg n) TR hfreshHead]
      rw [foldl_addChildAt_root (pre ++ "|" ++ lastSeg n) (pre ++ "|" ++ lastSeg n)
        (some (bagOf o)) cs []]
      rw [impNode_mk, impNodeList_map]
      rw [List.nil_append]
    · intro cs hsz pre TR par hcnt hfresh hnodup hparnot hbags
      cases cs with
      | nil =>
        rw [show docNodeList pre [] = [] by simp only [docNodeList]]
        rw [show importList TR par [] = some TR by simp [importList]]
        rw [List.foldl_nil]
      | cons c cs' =>
        have hszc : sizeOf c ≤ N := by
          simp only [List.cons.sizeOf_spec] at hsz
          omega
        have hszcs' : sizeOf cs' ≤ N := by
          simp only [List.cons.sizeOf_spec] at hsz
          omega
        rw [subtreePathsList_cons] at hfresh hnodup hparnot
        have hnd := List.nodup_append.mp hnodup
        rw [List.mem_append] at hparnot
        push_neg at hparnot
        have hfreshc : ∀ q ∈ subtreePaths pre c, countNamed TR q = 0 :=
          fun q hq => hfresh q (List.mem_append.mpr (Or.inl hq))
        have hfreshcs : ∀ q ∈ subtreePathsList pre cs', countNamed TR q = 0 :=
          fun q hq => hfresh q (List.mem_append.mpr (Or.inr hq))
        have hbagsc : ∀ x ∈ allNodes c, GoodBag x.opt := hbags c (List.mem_cons_self _ _)
        have hbagscs : ∀ c' ∈ cs', ∀ x ∈ allNodes c', GoodBag x.opt :=
          fun c' hc' => hbags c' (List.mem_cons_of_mem _ hc')
        have hstep := ihN c hszc pre TR par hcnt hfreshc hnd.1 hparnot.1 hbagsc
        rw [show docNodeList pre (c :: cs') = docNode pre c :: docNodeList pre cs' by
          simp only [docNodeList]]
        rw [show importList TR par (docNode pre c :: docNodeList pre cs')
            = (match importNode TR par (docNode pre c) with
               | Option.none => Option.none
               | some root' => importList root' par (docNodeList pre cs')) by
          simp [importList, docNode_tag]]
        rw [hstep]
        show importList (addChildAt TR par (impNode pre c)) par (docNodeList pre cs')
          = some ((c :: cs').foldl (fun S c' => addChildAt S par (impNode pre c')) TR)
        have hcnt₁ : countNamed (addChildAt TR par (impNode pre c)) par = 1 := by
          rw [countNamed_addChildAt par _ _ TR hcnt]
          rw [countNamed_impNode par c pre hparnot.1]
          omega
        have hfresh₁ : ∀ q ∈ subtreePathsList pre cs',
            countNamed (addChildAt TR par (impNode pre c)) q = 0 := by
          intro q hq
          rw [countNamed_addChildAt par _ _ TR hcnt]
          rw [hfreshcs q hq]
          rw [countNamed_impNode q c pre (fun hql => hnd.2.2 hql hq)]
        rw [ihL cs' hszcs' pre (addChildAt TR par (impNode pre c)) par hcnt₁ hfresh₁
          hnd.2.1 hparnot.2 hbagscs]
        rw [List.foldl_cons]

theorem subtreePaths_segPaths :
    ∀ c : NTree, ∀ P : List String,
      subtreePaths (strOfSegs P) c = (segPaths P c).map strOfSegs := by
  intro c
  induction c using NTree.strongInduction with
  | h n o cs ih =>
    intro P
    rw [subtreePaths_mk, segPaths_mk, List.map_cons]
    rw [← strOfSegs_append]
    congr 1
    revert ih
    induction cs with
    | nil => intro _; rw [subtreePathsList_nil, segPathsList_nil, List.map_nil]
    | cons c' cs' ihl =>
      intro ih
      rw [subtreePathsList_cons, segPathsList_cons, List.map_append]
      rw [ih c' (List.mem_cons_self _ _)]
      rw [ihl (fun c'' hc'' => ih c'' (List.mem_cons_of_mem _ hc''))]

theorem subtreePathsList_segPathsList (P : List String) (cs : List NTree) :
    subtreePathsList (strOfSegs P) cs = (segPathsList P cs).map strOfSegs := by
  induction cs with
  | nil => rw [subtreePathsList_nil, segPathsList_nil, List.map_nil]
  | cons c cs' ih =>
    rw [subtreePathsList_cons, segPathsList_cons, List.map_append, ih,
      subtreePaths_segPaths]

theorem segPaths_pipeFree :
    ∀ c : NTree, ∀ P : List String, (∀ s ∈ P, '|' ∉ s.data) →
      ∀ L ∈ segPaths P c, ∀ s ∈ L, '|' ∉ s.data := by
  intro c
  induction c using NTree.strongInduction with
  | h n o cs ih =>
    intro P hP L hL
    rw [segPaths_mk, List.mem_cons] at hL
    have hP' : ∀ s ∈ P ++ [lastSeg n], ('|' : Char) ∉ s.data := by
      intro s hs
      rcases List.mem_append.mp hs with h | h
      · exact hP s h
      · rw [List.mem_singleton.mp h]
        exact lastSeg_pipeFree n
    rcases hL with h | h
    · rw [h]
      exact hP'
    · revert ih h
      induction cs with
      | nil =>
        intro _ h
        rw [segPathsList_nil] at h
        exact absurd h (List.not_mem_nil L)
      | cons c' cs' ihl =>
        intro ih h
        rw [segPathsList_cons, List.mem_append] at h
        rcases h with h | h
        · exact ih c' (List.mem_cons_self _ _) _ hP' L h
        · exact ihl (fun c'' hc'' => ih c'' (List.mem_cons_of_mem _ hc'')) h

theorem segPathsList_pipeFree (P : List String) (hP : ∀ s ∈ P, '|' ∉ s.data)
    (cs : List NTree) : ∀ L ∈ segPathsList P cs, ∀ s ∈ L, '|' ∉ s.data := by
  induction cs with
  | nil =>
    intro L hL
    rw [segPathsList_nil] at hL
    exact absurd hL (List.not_mem_nil L)
  | cons c cs' ih =>
    intro L hL
    rw [segPathsList_cons, List.mem_append] at hL
    rcases hL with h | h
    · exact segPaths_pipeFree c P hP L h
    · exact ih L h

theorem segPaths_shape :
    ∀ c : NTree, ∀ P : List String, ∀ L ∈ segPaths P c,
      ∃ rest, L = P ++ lastSeg c.name :: rest := by
  intro c
  induction c using NTree.strongInduction with
  | h n o cs ih =>
    intro P L hL
    rw [segPaths_mk, List.mem_cons] at hL
    rcases hL with h | h
    · exact ⟨[], h⟩
    · revert ih h
      induction cs with
      | nil =>
        intro _ h
        rw [segPathsList_nil] at h
        exact absurd h (List.not_mem_nil L)
      | cons c' cs' ihl =>
        intro ih h
        rw [segPathsList_cons, List.mem_append] at h
        rcases h with h | h
        · obtain ⟨r, hr⟩ := ih c' (List.mem_cons_self _ _) (P ++ [lastSeg n]) L h
          exact ⟨lastSeg c'.name :: r, by rw [hr]; simp⟩
        · exact ihl (fun c'' hc'' => ih c'' (List.mem_cons_of_mem _ hc'')) h

theorem segPathsList_shape :
    ∀ (cs : List NTree) (P : List String), ∀ L ∈ segPathsList P cs,
      ∃ c ∈ cs, ∃ rest, L = P ++ lastSeg c.name :: rest := by
  intro cs
  induction cs with
  | nil =>
    intro P L hL
    rw [segPathsList_nil] at hL
    exact absurd hL (List.not_mem_nil L)
  | cons c cs' ih =>
    intro P L hL
    rw [segPathsList_cons, List.mem_append] at hL
    rcases hL with h | h
    · obtain ⟨r, hr⟩ := segPaths_shape c P L h
      exact ⟨c, List.mem_cons_self _ _, r, hr⟩
    · obtain ⟨c', hc', r, hr⟩ := ih P L h
      exact ⟨c', List.mem_cons_of_mem _ hc', r, hr⟩

theorem segPaths_nodup :
    ∀ c : NTree, UniqSibs c → ∀ P : List String, (segPaths P c).Nodup := by
  intro c
  induction c using NTree.strongInduction with
  | h n o cs ih =>
    intro hU P
    have hpw := uniqSibs_pairwise hU
    have hus := uniqSibs_childs hU
    rw [segPaths_mk]
    refine List.nodup_cons.mpr ⟨?_, ?_⟩
    · intro hmem
      obtain ⟨c', hc', r, he⟩ := segPathsList_shape cs (P ++ [lastSeg n]) _ hmem
      have hlen := congrArg List.length he
      simp only [List.length_append, List.length_cons] at hlen
      omega
    · clear hU
      revert ih hpw hus
      generalize P ++ [lastSeg n] = Q
      induction cs with
      | nil =>
        intro _ _ _
        rw [segPathsList_nil]
        exact List.nodup_nil
      | cons c' cs' ihl =>
        intro ih hpw hus
        rw [segPathsList_cons, List.nodup_append]
        refine ⟨ih c' (List.mem_cons_self _ _) (hus c' (List.mem_cons_self _ _)) Q,
          ihl (fun c'' hc'' => ih c'' (List.mem_cons_of_mem _ hc''))
            (List.pairwise_cons.mp hpw).2
            (fun c'' hc'' => hus c'' (List.mem_cons_of_mem _ hc'')), ?_⟩
        intro L hL1 hL2
        obtain ⟨r1, he1⟩ := segPaths_shape c' Q L hL1
        obtain ⟨c'', hc'', r2, he2⟩ := segPathsList_shape cs' Q L hL2
        have hne : lastSeg c'.name ≠ lastSeg c''.name :=
          (List.pairwise_cons.mp hpw).1 c'' hc''
        rw [he1] at he2
        have h2 := List.append_cancel_left he2
        exact hne (List.cons.inj h2).1

theorem segPathsList_nodup :
    ∀ cs : List NTree, ∀ P : List String,
      cs.Pairwise (fun a b => lastSeg a.name ≠ lastSeg b.name) →
      (∀ c ∈ cs, UniqSibs c) → (segPathsList P cs).Nodup := by
  intro cs
  induction cs with
  | nil =>
    intro P _ _
    rw [segPathsList_nil]
    exact List.nodup_nil
  | cons c cs' ih =>
    intro P hpw hus
    rw [segPathsList_cons, List.nodup_append]
    refine ⟨segPaths_nodup c (hus c (List.mem_cons_self _ _)) P,
      ih P (List.pairwise_cons.mp hpw).2
        (fun c' hc' => hus c' (List.mem_cons_of_mem _ hc')), ?_⟩
    intro L hL1 hL2
    obtain ⟨r1, he1⟩ := segPaths_shape c P L hL1
    obtain ⟨c', hc', r2, he2⟩ := segPathsList_shape cs' P L hL2
    have hne : lastSeg c.name ≠ lastSeg c'.name :=
      (List.pairwise_cons.mp hpw).1 c' hc'
    rw [he1] at he2
    have h2 := List.append_cancel_left he2
    exact hne (List.cons.inj h2).1

/-- `import_xml` on a completed exported document rebuilds the tree: the
root keeps its short name and normalized bag, and every descendant reappears
in order under its parent, renamed to its document full path. -/
theorem import_spec (n : String) (o : Option Bag) (cs : List NTree)
    (hU : UniqSibs (NTree.mk n o cs)) (hGB : GoodBags (NTree.mk n o cs)) :
    import_xml (exportDoc (NTree.mk n o cs))
      = some (NTree.mk (lastSeg n) (some (bagOf o))
          (cs.map (impNode ("" ++ "|" ++ lastSeg n)))) := by
  have hpw := uniqSibs_pairwise hU
  have hus := uniqSibs_childs hU
  have hGBo : GoodBag o := hGB _ (self_mem_allNodes _)
  have hfa : findallTag (Elem.mk TAG_ROOT [] [docNode "" (NTree.mk n o cs)]) TAG_NODE
      = [docNode "" (NTree.mk n o cs)] := by
    simp [findallTag, docNode_tag]
  rw [show import_xml (exportDoc (NTree.mk n o cs))
      = (match (findallTag (Elem.mk TAG_ROOT [] [docNode "" (NTree.mk n o cs)])
             TAG_NODE).head? with
         | Option.none => Option.none
         | some node =>
           match node.attrGet "name" with
           | Option.none => Option.none
           | some name =>
             match restoreOptionElem node with
             | Option.none => Option.none
             | some bag => importList (NTree.mk name (some bag) []) name node.children)
        from rfl]
  rw [hfa]
  show (match Elem.attrGet (docNode "" (NTree.mk n o cs)) "name" with
     | Option.none => Option.none
     | some name =>
       match restoreOptionElem (docNode "" (NTree.mk n o cs)) with
       | Option.none => Option.none
       | some bag => importList (NTree.mk name (some bag) []) name
           (docNode "" (NTree.mk n o cs)).children) = _
  have hname : lastSeg (("" : String) ++ "|" ++ lastSeg n) = lastSeg n :=
    lastSeg_strOfSegs [] (lastSeg n)
      (by
        intro s hs
        rw [List.mem_singleton.mp hs]
        exact lastSeg_pipeFree n)
  have hnameAttr : Elem.attrGet (docNode "" (NTree.mk n o cs)) "name"
      = some (lastSeg n) := by
    simp only [docNode]
    rw [show Elem.attrGet (Elem.mk TAG_NODE
        [("name", lastSeg ("" ++ "|" ++ lastSeg n)), ("fullpath", "" ++ "|" ++ lastSeg n)]
        (optionElems o ++ docNodeList ("" ++ "|" ++ lastSeg n) cs)) "name"
        = some (lastSeg ("" ++ "|" ++ lastSeg n)) from rfl]
    rw [hname]
  rw [hnameAttr]
  rw [restoreOptionElem_docNode "" n o cs hGBo]
  show importList (NTree.mk (lastSeg n) (some (bagOf o)) []) (lastSeg n)
      (docNode "" (NTree.mk n o cs)).children = _
  rw [show (docNode "" (NTree.mk n o cs)).children
      = optionElems o ++ docNodeList ("" ++ "|" ++ lastSeg n) cs by
    simp only [docNode, Elem.children_mk]]
  rw [importList_skip_options]
  have hPfree : ∀ s ∈ [lastSeg n], ('|' : Char) ∉ s.data := by
    intro s hs
    rw [List.mem_singleton.mp hs]
    exact lastSeg_pipeFree n
  have hsub : subtreePathsList ("" ++ "|" ++ lastSeg n) cs
      = (segPathsList [lastSeg n] cs).map strOfSegs :=
    subtreePathsList_segPathsList [lastSeg n] cs
  have hqform : ∀ q ∈ subtreePathsList ("" ++ "|" ++ lastSeg n) cs, ¬ lastSeg n = q := by
    intro q hq
    rw [hsub] at hq
    obtain ⟨L, hL, hLq⟩ := List.mem_map.mp hq
    obtain ⟨c', hc', r, hr⟩ := segPathsList_shape cs [lastSeg n] L hL
    rw [← hLq, hr]
    exact pipeFree_ne_strOfSegs (lastSeg n) (lastSeg n) (lastSeg c'.name :: r)
      (lastSeg_pipeFree n)
  have hcnt0 : countNamed (NTree.mk (lastSeg n) (some (bagOf o)) []) (lastSeg n) = 1 := by
    rw [countNamed_mk, if_pos rfl, countNamedList_nil]
  have hfresh0 : ∀ q ∈ subtreePathsList ("" ++ "|" ++ lastSeg n) cs,
      countNamed (NTree.mk (lastSeg n) (some (bagOf o)) []) q = 0 := by
    intro q hq
    rw [countNamed_mk, countNamedList_nil, if_neg (hqform q hq)]
  have hnodup0 : (subtreePathsList ("" ++ "|" ++ lastSeg n) cs).Nodup := by
    rw [hsub]
    apply List.Nodup.map_on
    · intro x hx y hy hxy
      exact strOfSegs_injective x y
        (segPathsList_pipeFree [lastSeg n] hPfree cs x hx)
        (segPathsList_pipeFree [lastSeg n] hPfree cs y hy) hxy
    · exact segPathsList_nodup cs [lastSeg n] hpw hus
  have hpar0 : lastSeg n ∉ subtreePathsList ("" ++ "|" ++ lastSeg n) cs :=
    fun hmem => hqform _ hmem rfl
  have hbags0 : ∀ c' ∈ cs, ∀ x ∈ allNodes c', GoodBag x.opt :=
    fun c' hc' x hx => hGB x (mem_allNodes_of_child hc' hx)
  rw [(importAux (sizeOf cs)).2 cs (le_refl _) ("" ++ "|" ++ lastSeg n)
    (NTree.mk (lastSeg n) (some (bagOf o)) []) (lastSeg n)
    hcnt0 hfresh0 hnodup0 hpar0 hbags0]
  rw [foldl_addChildAt_root (lastSeg n) ("" ++ "|" ++ lastSeg n) (some (bagOf o)) cs []]
  rw [List.nil_append]

theorem view_mk (n : String) (o : Option Bag) (cs : List NTree) :
    view (NTree.mk n o cs) = ViewTree.mk (lastSeg n) (bagOf o) (viewList cs) := by
  simp only [view]

theorem viewList_cons (c : NTree) (cs : List NTree) :
    viewList (c :: cs) = view c :: viewList cs := by
  simp only [viewList]

theorem view_impNode :
    ∀ c : NTree, ∀ P : List String, (∀ s ∈ P, '|' ∉ s.data) →
      view (impNode (strOfSegs P) c) = view c := by
  intro c
  induction c using NTree.strongInduction with
  | h n o cs ih =>
    intro P hP
    rw [impNode_mk, view_mk, view_mk]
    have hP' : ∀ s ∈ P ++ [lastSeg n], ('|' : Char) ∉ s.data := by
      intro s hs
      rcases List.mem_append.mp hs with h | h
      · exact hP s h
      · rw [List.mem_singleton.mp h]
        exact lastSeg_pipeFree n
    congr 1
    · rw [← strOfSegs_append]
      exact lastSeg_strOfSegs P (lastSeg n) hP'
    · rw [← strOfSegs_append]
      revert ih
      induction cs with
      | nil =>
        intro _
        rw [show impNodeList (strOfSegs (P ++ [lastSeg n])) [] = [] by
          simp only [impNodeList]]
      | cons c' cs' ihl =>
        intro ih
        rw [show impNodeList (strOfSegs (P ++ [lastSeg n])) (c' :: cs')
            = impNode (strOfSegs (P ++ [lastSeg n])) c'
              :: impNodeList (strOfSegs (P ++ [lastSeg n])) cs' by
          simp only [impNodeList]]
        rw [viewList_cons, viewList_cons]
        rw [ih c' (List.mem_cons_self _ _) (P ++ [lastSeg n]) hP']
        rw [ihl (fun c'' hc'' => ih c'' (List.mem_cons_of_mem _ hc''))]

theorem viewList_map_impNode (P : List String) (hP : ∀ s ∈ P, '|' ∉ s.data) :
    ∀ cs : List NTree, viewList (cs.map (impNode (strOfSegs P))) = viewList cs := by
  intro cs
  induction cs with
  | nil => rw [List.map_nil]
  | cons c cs' ih =>
    rw [List.map_cons, viewList_cons, viewList_cons, view_impNode c P hP, ih]

/-! ### Claim C1: counterexample -/

/-- A single-node tree whose bag holds a list value (as `construct` stores
for the `shapes` getter). -/
def exC1 : NTree := NTree.mk "r" (some [("shapes", PyValue.list [PyValue.str "s"])]) []

/-- Scene resolution for the single-node tree. -/
def exC1resolve : String → Option String :=
  fun n => if n == "r" then some "|r" else Option.none

/-- What the round trip actually rebuilds: decoding the `list` tag applies
`list(...)` to the stored text, yielding its characters. -/
def exC1imported : NTree :=
  NTree.mk "r" (some [("shapes", PyValue.list
    [PyValue.str "[", PyValue.str "'", PyValue.str "s", PyValue.str "'",
     PyValue.str "]"])]) []

/-- Counterexample to C1 as stated: on the concrete single-node tree (unique
sibling names trivially) with a list-valued attribute, the round trip is
defined but the rebuilt root's attribute bag differs from the original —
the depth-0 (path-suffix, attribute-bag) multiset is not preserved even
though the topology is. -/
theorem claim_C1_roundtrip_counterexample :
    (export_xml exC1 exC1resolve).bind import_xml = some exC1imported
    ∧ exC1imported.opt ≠ exC1.opt
    ∧ exC1imported.childs = [] ∧ exC1.childs = []
    ∧ lastSeg exC1imported.name = lastSeg exC1.name := by
  refine ⟨?_, ?_, rfl, rfl, rfl⟩
  · have hdoc : export_xml exC1 exC1resolve = some (Elem.mk TAG_ROOT []
        [Elem.mk "node" [("name", "r"), ("fullpath", "|r")]
          [Elem.mk "option" [("name", "shapes"), ("value", "['s']"), ("type", "list")] []]]) := by
      show exportFold exC1resolve (traverse exC1 true) (Elem.mk TAG_ROOT [] []) = _
      rw [show traverse exC1 true = [(exC1, [])] from rfl]
      simp only [exportFold, exportStep]
      rw [show exC1resolve exC1.name = some "|r" from rfl]
      simp only [childElems]
      rw [show (pySplit "|r" '|').drop 1 = ["r"] from rfl]
      simp [findNamedElement, findInChildren, exC1, create_new_nodeTag, createNewElement,
        optionElems, lastSeg, pySplit, splitChars, TAG_NODE, TAG_OPT, TAG_ROOT]
      exact ⟨rfl, rfl⟩
    rw [hdoc]
    rfl
  · simp [exC1imported, exC1]

/-! ### Claim C1: amended round trip -/

/-- Claim C1 (amended): when every node name resolves to its tree-position
full path, sibling short names are unique at every level and every attribute
bag is codec-round-trippable (scalar values; exactly-decimal floats),
`export_xml` writes exactly the completed document `exportDoc`, and
importing that document back rebuilds a tree with the same view — identical
topology and, at every node, the same path suffix and the same normalized
attribute bag (node names become document full paths; `None` bags come back
as empty dicts). -/
theorem claim_C1_roundtrip_amended (t : NTree) (resolve : String → Option String)
    (hWP : WellPathed resolve [] t) (hU : UniqSibs t) (hGB : GoodBags t) :
    export_xml t resolve = some (exportDoc t)
      ∧ (import_xml (exportDoc t)).map view = some (view t) := by
  obtain ⟨n, o, cs⟩ := t
  refine ⟨export_spec resolve _ hWP hU, ?_⟩
  rw [import_spec n o cs hU hGB]
  show some (view (NTree.mk (lastSeg n) (some (bagOf o))
      (cs.map (impNode ("" ++ "|" ++ lastSeg n))))) = some (view (NTree.mk n o cs))
  rw [view_mk, view_mk]
  rw [lastSeg_of_pipeFree (lastSeg n) (lastSeg_pipeFree n)]
  rw [show viewList (cs.map (impNode ("" ++ "|" ++ lastSeg n))) = viewList cs from
    viewList_map_impNode [lastSeg n]
      (by
        intro s hs
        rw [List.mem_singleton.mp hs]
        exact lastSeg_pipeFree n) cs]
  rfl

/-- A two-node tree with a scalar attribute, for the amended round trip. -/
def exRT : NTree :=
  NTree.mk "r" (some [("a", PyValue.int 3)]) [NTree.mk "c" (some []) []]

/-- Scene resolution matching `exRT`'s tree positions. -/
def exRTresolve : String → Option String :=
  fun s => if s = "r" then some "|r" else if s = "c" then some "|r|c" else Option.none

theorem claim_C1_roundtrip_amended_witness :
    export_xml exRT exRTresolve = some (exportDoc exRT)
      ∧ (import_xml (exportDoc exRT)).map view = some (view exRT) :=
  claim_C1_roundtrip_amended exRT exRTresolve
    (WellPathed.mk [] "r" (some [("a", PyValue.int 3)]) [NTree.mk "c" (some []) []]
      (by decide)
      (by
        intro c hc
        rw [List.mem_singleton.mp hc]
        exact WellPathed.mk ([] ++ [lastSeg "r"]) "c" (some []) []
          (by decide)
          (by
            intro c' hc'
            exact absurd hc' (List.not_mem_nil c'))))
    (UniqSibs.mk "r" (some [("a", PyValue.int 3)]) [NTree.mk "c" (some []) []]
      (by simp)
      (by
        intro c hc
        rw [List.mem_singleton.mp hc]
        exact UniqSibs.mk "c" (some []) [] (by simp)
          (by
            intro c' hc'
            exact absurd hc' (List.not_mem_nil c'))))
    (by
      intro x hx
      rw [show allNodes exRT = [exRT, NTree.mk "c" (some []) []] by
        simp [exRT, allNodes, allNodesList]] at hx
      simp only [List.mem_cons, List.not_mem_nil, or_false] at hx
      rcases hx with h | h
      · rw [h]
        exact ⟨by simp [exRT, bagOf], by
          intro kv hkv
          rw [List.mem_singleton.mp hkv]
          trivial⟩
      · rw [h]
        exact ⟨by simp [bagOf], by
          intro kv hkv
          exact absurd hkv (List.not_mem_nil kv)⟩)

end Dagger
